import Mathlib

/-! WorkStealingThreadPool (thread_numa.hpp): a shallow embedding

The pool of `src/ThreadPool_with_Numa/thread_numa.hpp` is embedded as a pure
state machine.

* A `std::deque<Task>` is a `List`, the head of the list being the front of
  the deque: `push_front` is `List.cons`, `front`/`pop_front` are head/tail,
  `back`/`pop_back` are `getLast?`/`dropLast`.
* `try_pop_local` and `try_steal` run wholly under one queue mutex and are one
  step each; threads are not modelled, an interleaving of threads is a sequence
  of steps.
* `enqueue` reads `stop` outside any lock (line 74) and takes the queue lock
  only for the capacity test and the push (lines 95-110); `shutdown_now` sets
  `stop` (line 176) and then clears the queues one lock at a time (lines
  177-180). `enqueue` and `shutdown_now` below are these calls run without
  another thread in between; `enqueue_begin`, `enqueue_commit`, `set_stop`,
  `clear_queue` are their parts, and `fire` is the machine whose steps are the
  parts, used where the stop flag and the queues are related across calls.
* A call returns its outcome (normal return or the exception thrown) together
  with the pool as that path leaves it.
* libnuma (`numa_available`, `numa_max_node`) is a parameter, `NumaEnv`.
* `std::mt19937` is not modelled; each call `dist(rng)` takes the raw generator
  output as an extra argument `draw`.
* `size_t`/`int` are `Nat`/`Int`; no value in the code comes near the word size.
-/

namespace WorkStealingThreadPool

/-- The two libnuma queries the pool makes: `numa_available()` and
`numa_max_node()`. -/
structure NumaEnv where
  numa_available : Int
  numa_max_node : Int
deriving DecidableEq, Repr

/-- The `struct Task` of the source: `func` is the callable that the queued
wrapper lambda runs (the wrapper only adds a timing print), `numa_node` the hint
(-1 if no affinity). -/
structure Task (α : Type) where
  func : α
  numa_node : Int
deriving DecidableEq, Repr

/-- The `struct Worker` of the source without its mutex and thread: the deque
(front first) and the assigned node. -/
structure Worker (α : Type) where
  queue : List (Task α)
  numa_node : Int
deriving DecidableEq, Repr

/-- The data members of `WorkStealingThreadPool`: `workers`, `stop`,
`queue_capacity`. -/
structure Pool (α : Type) where
  workers : List (Worker α)
  stop : Bool
  queue_capacity : Nat
deriving DecidableEq, Repr

/-- The exceptions of the constructor: `std::invalid_argument("Number of threads
must be greater than 0")` and `std::runtime_error("NUMA not available")`. -/
inductive ConstructError where
  | ZeroThreads
  | NumaUnavailable
deriving DecidableEq, Repr

/-- The exceptions of `enqueue`, named as in the specification:
`PoolClosed` is `std::runtime_error("Cannot enqueue tasks after shutdown")`,
`InvalidArgument` is `std::invalid_argument("Task cannot be null")`,
`QueueFull` is `std::runtime_error("Task queue is full")`. -/
inductive EnqueueError where
  | PoolClosed
  | InvalidArgument
  | QueueFull
deriving DecidableEq, Repr

/-- The outcome of `enqueue`: normal return or the exception thrown. -/
inductive EnqueueResult where
  | ok
  | error (e : EnqueueError)
deriving DecidableEq, Repr

/-- The node given to worker `i` in the constructor loop (line 62):
`max_nodes > 1 ? (i % max_nodes) : 0`. -/
def assigned_node (max_nodes : Int) (i : Nat) : Int :=
  if max_nodes > 1 then (i : Int) % max_nodes else 0

/-- The constructor (lines 50-67): throws on zero threads or when NUMA is
unavailable, otherwise creates `num_threads` workers with empty queues, worker
`i` on node `assigned_node (numa_max_node() + 1) i`. -/
def construct {α : Type} (numa : NumaEnv) (num_threads queue_capacity : Nat) :
    Except ConstructError (Pool α) :=
  if num_threads = 0 then
    .error .ZeroThreads
  else if numa.numa_available < 0 then
    .error .NumaUnavailable
  else
    let max_nodes := numa.numa_max_node + 1
    .ok { workers := (List.range num_threads).map
            (fun i => { queue := [], numa_node := assigned_node max_nodes i })
          stop := false
          queue_capacity := queue_capacity }

/-- The value of `std::uniform_int_distribution<size_t>(a, b)` applied to the
generator whose raw output is `raw`: a value of the closed range `[a, b]`. -/
def uniform_int_distribution (a b : Nat) (raw : Nat) : Nat :=
  a + raw % (b - a + 1)

/-- The search loop of `enqueue` (lines 84-89) over the workers from index `i`
on: the first index whose node equals the hint, or the incoming `target` when
the loop ends without a match. -/
def find_target {α : Type} (numa_node : Int) : List (Worker α) → Nat → Nat → Nat
  | [], _, target => target
  | w :: ws, i, target =>
    if w.numa_node = numa_node then i else find_target numa_node ws (i + 1) target

/-- The routing decision of `enqueue` (lines 82-93): `target` starts at 0; a
hint within `[0, numa_max_node()]` runs the search loop, any other hint draws
from `uniform_int_distribution(0, workers.size() - 1)`. -/
def route {α : Type} (numa : NumaEnv) (workers : List (Worker α)) (numa_node : Int)
    (draw : Nat) : Nat :=
  if 0 ≤ numa_node ∧ numa_node ≤ numa.numa_max_node then
    find_target numa_node workers 0 0
  else
    uniform_int_distribution 0 (workers.length - 1) draw

/-- The value `workers[i].queue.size()`; an index past the end (which the source
never forms) reads as 0. -/
def queue_size {α : Type} (workers : List (Worker α)) (i : Nat) : Nat :=
  match workers[i]? with
  | some w => w.queue.length
  | none => 0

/-- The call `workers[i].queue.push_front(t)`. -/
def push_front {α : Type} (workers : List (Worker α)) (i : Nat) (t : Task α) :
    List (Worker α) :=
  workers.modify (fun w => { w with queue := t :: w.queue }) i

/-- The member `enqueue` (lines 73-111), run with no step of another thread
between its lines: the stop check, then the null check, then routing, then the
capacity check and `push_front` on the target queue. `task = none` is the empty
`std::function`. The two halves of the call are `enqueue_begin` and
`enqueue_commit`. -/
def enqueue {α : Type} (numa : NumaEnv) (p : Pool α) (task : Option α) (numa_node : Int)
    (draw : Nat) : EnqueueResult × Pool α :=
  if p.stop then
    (.error .PoolClosed, p)
  else
    match task with
    | none => (.error .InvalidArgument, p)
    | some f =>
      let target := route numa p.workers numa_node draw
      if queue_size p.workers target ≥ p.queue_capacity then
        (.error .QueueFull, p)
      else
        (.ok, { p with workers := push_front p.workers target ⟨f, numa_node⟩ })

/-- The member `try_pop_local` (lines 146-154): `none` is `return false`,
`some t` is `return true` with `t` moved out of the front of the queue. -/
def try_pop_local {α : Type} (p : Pool α) (worker_id : Nat) : Option (Task α) × Pool α :=
  match p.workers[worker_id]? with
  | none => (none, p)
  | some w =>
    match w.queue with
    | [] => (none, p)
    | t :: rest => (some t, { p with workers := p.workers.set worker_id { w with queue := rest } })

/-- The member `try_steal` (lines 156-164): `none` is `return false`, `some t` is
`return true` with `t` moved out of the back of the victim's queue. -/
def try_steal {α : Type} (p : Pool α) (victim_id : Nat) : Option (Task α) × Pool α :=
  match p.workers[victim_id]? with
  | none => (none, p)
  | some w =>
    match w.queue.getLast? with
    | none => (none, p)
    | some t =>
      (some t, { p with workers := p.workers.set victim_id { w with queue := w.queue.dropLast } })

/-- The member `shutdown` (lines 166-173): sets the stop flag (the joins have no
effect on the queues). -/
def shutdown {α : Type} (p : Pool α) : Pool α :=
  { p with stop := true }

/-- The member `shutdown_now` (lines 175-186): sets the stop flag and clears
every worker's queue. -/
def shutdown_now {α : Type} (p : Pool α) : Pool α :=
  { p with stop := true, workers := p.workers.map (fun w => { w with queue := [] }) }

/-- One call on the pool. -/
inductive Op (α : Type) where
  | enqueue (task : Option α) (numa_node : Int) (draw : Nat)
  | try_pop_local (worker_id : Nat)
  | try_steal (victim_id : Nat)
  | shutdown
  | shutdown_now
deriving DecidableEq, Repr

/-- The pool after one call. -/
def step {α : Type} (numa : NumaEnv) (p : Pool α) : Op α → Pool α
  | .enqueue task numa_node draw => (enqueue numa p task numa_node draw).2
  | .try_pop_local worker_id => (try_pop_local p worker_id).2
  | .try_steal victim_id => (try_steal p victim_id).2
  | .shutdown => shutdown p
  | .shutdown_now => shutdown_now p

/-- The pool after a sequence of calls. -/
def run {α : Type} (numa : NumaEnv) (p : Pool α) (ops : List (Op α)) : Pool α :=
  ops.foldl (step numa) p

/-- A pool state that a constructed pool reaches by some sequence of calls. -/
def Reachable {α : Type} (numa : NumaEnv) (p : Pool α) : Prop :=
  ∃ (num_threads queue_capacity : Nat) (p0 : Pool α) (ops : List (Op α)),
    construct numa num_threads queue_capacity = .ok p0 ∧ run numa p0 ops = p

/-- The nodes of the workers, in index order. -/
def nodes {α : Type} (p : Pool α) : List Int :=
  p.workers.map (fun w => w.numa_node)

/-- All tasks that sit in some queue, worker by worker, front first. -/
def queued {α : Type} (p : Pool α) : List (Task α) :=
  (p.workers.map (fun w => w.queue)).flatten

/-- The results of `k` successive calls `try_pop_local(worker_id, _)`, and the
pool after them. -/
def pop_local_n {α : Type} (p : Pool α) (worker_id : Nat) : Nat → List (Option (Task α)) × Pool α
  | 0 => ([], p)
  | k + 1 =>
    let r := try_pop_local p worker_id
    let rs := pop_local_n r.2 worker_id k
    (r.1 :: rs.1, rs.2)

/-- The results of `k` successive calls `try_steal(victim_id, _)`, and the pool
after them. -/
def steal_n {α : Type} (p : Pool α) (victim_id : Nat) : Nat → List (Option (Task α)) × Pool α
  | 0 => ([], p)
  | k + 1 =>
    let r := try_steal p victim_id
    let rs := steal_n r.2 victim_id k
    (r.1 :: rs.1, rs.2)

/-- A submission: the callable, the hint and the generator output of the call. -/
structure Submission (α : Type) where
  func : α
  numa_node : Int
  draw : Nat
deriving DecidableEq, Repr

/-- The call `enqueue(func, numa_node)` of a submission. -/
def Submission.op {α : Type} (s : Submission α) : Op α :=
  .enqueue (some s.func) s.numa_node s.draw

/-- The task that a successful `enqueue` of the submission puts on a queue. -/
def Submission.task {α : Type} (s : Submission α) : Task α :=
  ⟨s.func, s.numa_node⟩

/-- The results of the successive `enqueue` calls of a list of submissions, and
the pool after them. -/
def enqueue_all {α : Type} (numa : NumaEnv) (p : Pool α) :
    List (Submission α) → List EnqueueResult × Pool α
  | [] => ([], p)
  | s :: ss =>
    let r := enqueue numa p (some s.func) s.numa_node s.draw
    let rs := enqueue_all numa r.2 ss
    (r.1 :: rs.1, rs.2)

/-- A pool together with the record of what went in and out of it: `accepted`
lists the tasks of the `enqueue` calls that returned normally, `handed` the
tasks that `try_pop_local` and `try_steal` returned to a worker for execution
(most recent first in both). -/
structure Ledger (α : Type) where
  pool : Pool α
  accepted : List (Task α)
  handed : List (Task α)
deriving DecidableEq, Repr

/-- One call on the pool, recorded in the ledger. -/
def track {α : Type} (numa : NumaEnv) (l : Ledger α) : Op α → Ledger α
  | .enqueue task numa_node draw =>
    match task, enqueue numa l.pool task numa_node draw with
    | some f, (.ok, p) => { pool := p, accepted := ⟨f, numa_node⟩ :: l.accepted, handed := l.handed }
    | _, (_, p) => { l with pool := p }
  | .try_pop_local worker_id =>
    match try_pop_local l.pool worker_id with
    | (some t, p) => { l with pool := p, handed := t :: l.handed }
    | (none, p) => { l with pool := p }
  | .try_steal victim_id =>
    match try_steal l.pool victim_id with
    | (some t, p) => { l with pool := p, handed := t :: l.handed }
    | (none, p) => { l with pool := p }
  | .shutdown => { l with pool := shutdown l.pool }
  | .shutdown_now => { l with pool := shutdown_now l.pool }

/-- A sequence of calls recorded in the ledger. -/
def track_all {α : Type} (numa : NumaEnv) (l : Ledger α) (ops : List (Op α)) : Ledger α :=
  ops.foldl (track numa) l

/-! ## The calls in parts: what another thread can come between -/

/-- An `enqueue` call that has passed lines 73-93 (stop check, null check,
routing) and has not yet taken the queue lock of line 96: the chosen target and
the task it is about to push. -/
structure PendingEnqueue (α : Type) where
  target : Nat
  task : Task α
deriving DecidableEq, Repr

/-- The outcome of the first half of `enqueue`: an exception, or the call goes
on to the queue lock. -/
inductive BeginResult (α : Type) where
  | error (e : EnqueueError)
  | pending (c : PendingEnqueue α)
deriving DecidableEq, Repr

/-- The first half of `enqueue` (lines 73-93), which holds no lock: the read
of `stop`, the null check and the routing. -/
def enqueue_begin {α : Type} (numa : NumaEnv) (p : Pool α) (task : Option α)
    (numa_node : Int) (draw : Nat) : BeginResult α :=
  if p.stop then
    .error .PoolClosed
  else
    match task with
    | none => .error .InvalidArgument
    | some f => .pending ⟨route numa p.workers numa_node draw, ⟨f, numa_node⟩⟩

/-- The second half of `enqueue` (lines 95-110), under the lock of the target
queue: the capacity test and `push_front`. It does not read `stop`. -/
def enqueue_commit {α : Type} (p : Pool α) (c : PendingEnqueue α) : EnqueueResult × Pool α :=
  if queue_size p.workers c.target ≥ p.queue_capacity then
    (.error .QueueFull, p)
  else
    (.ok, { p with workers := push_front p.workers c.target c.task })

/-- The statement `stop = true` (line 167 of `shutdown`, line 176 of
`shutdown_now`). -/
def set_stop {α : Type} (p : Pool α) : Pool α :=
  { p with stop := true }

/-- One round of the first loop of `shutdown_now` (lines 178-179):
`workers[i].queue.clear()` under that queue's lock. -/
def clear_queue {α : Type} (p : Pool α) (i : Nat) : Pool α :=
  { p with workers := p.workers.modify (fun w => { w with queue := [] }) i }

/-- The contents of `workers[i].queue`, front first; an index past the end
(which the source never forms) reads as the empty queue. -/
def tasks_at {α : Type} (workers : List (Worker α)) (i : Nat) : List (Task α) :=
  match workers[i]? with
  | some w => w.queue
  | none => []

/-- The pool together with the `enqueue` calls that are between their two
halves. -/
structure System (α : Type) where
  pool : Pool α
  pending : List (PendingEnqueue α)
deriving DecidableEq, Repr

/-- One indivisible step of some thread. `enqueue_commit k` is the second half
of the `k`-th call in `pending`. -/
inductive Event (α : Type) where
  | enqueue_begin (task : Option α) (numa_node : Int) (draw : Nat)
  | enqueue_commit (k : Nat)
  | try_pop_local (worker_id : Nat)
  | try_steal (victim_id : Nat)
  | set_stop
  | clear_queue (i : Nat)
deriving DecidableEq, Repr

/-- The system after one step. -/
def fire {α : Type} (numa : NumaEnv) (s : System α) : Event α → System α
  | .enqueue_begin task numa_node draw =>
    match enqueue_begin numa s.pool task numa_node draw with
    | .error _ => s
    | .pending c => { s with pending := s.pending ++ [c] }
  | .enqueue_commit k =>
    match s.pending[k]? with
    | none => s
    | some c => { pool := (enqueue_commit s.pool c).2, pending := s.pending.eraseIdx k }
  | .try_pop_local worker_id => { s with pool := (try_pop_local s.pool worker_id).2 }
  | .try_steal victim_id => { s with pool := (try_steal s.pool victim_id).2 }
  | .set_stop => { s with pool := set_stop s.pool }
  | .clear_queue i => { s with pool := clear_queue s.pool i }

/-- The system after a sequence of steps. -/
def fire_all {α : Type} (numa : NumaEnv) (s : System α) (evs : List (Event α)) : System α :=
  evs.foldl (fire numa) s

/-- The steps of a call of `shutdown_now` on a pool of `n` workers, in program
order: `stop = true`, then the clear of worker 0, 1, ..., `n - 1`. -/
def shutdown_now_events {α : Type} (n : Nat) : List (Event α) :=
  .set_stop :: (List.range n).map .clear_queue

/-! ## Concrete machines and pools used in the examples -/

/-- A machine with a single NUMA node: `numa_available() = 0`,
`numa_max_node() = 0`. -/
def numa_one_node : NumaEnv := ⟨0, 0⟩

/-- A machine with four NUMA nodes: `numa_available() = 0`,
`numa_max_node() = 3`. -/
def numa_four_nodes : NumaEnv := ⟨0, 3⟩

/-- The pool `WorkStealingThreadPool(1, 2)` right after construction on
`numa_one_node`. -/
def pool_1_2 : Pool Nat := ⟨[⟨[], 0⟩], false, 2⟩

/-- The pool `WorkStealingThreadPool(2, 10)` right after construction on
`numa_four_nodes`: worker 0 on node 0, worker 1 on node 1, nodes 2 and 3
without a worker. -/
def pool_2_10 : Pool Nat := ⟨[⟨[], 0⟩, ⟨[], 1⟩], false, 10⟩

/-- The pool `WorkStealingThreadPool pool(4, 1000)` of `main_numa.cpp` right
after construction on `numa_one_node`. -/
def pool_4_1000 : Pool Nat := ⟨[⟨[], 0⟩, ⟨[], 0⟩, ⟨[], 0⟩, ⟨[], 0⟩], false, 1000⟩

/-- The 400 calls `pool.enqueue(..., 0)` of `main_numa.cpp`, the callable of
the `i`-th call being `i`. -/
def submissions_400 : List (Submission Nat) :=
  (List.range 400).map (fun i => ⟨i, 0, 0⟩)

/-- A run on `pool_1_2`: two submissions, a steal, a local pop, a third
submission and a graceful shutdown. -/
def ops_example : List (Op Nat) :=
  [.enqueue (some 7) (-1) 0, .enqueue (some 8) 0 0, .try_steal 0, .try_pop_local 0,
   .enqueue (some 9) (-1) 4, .shutdown]

/-- A schedule on `pool_1_2`: a thread starts `enqueue(7)` and passes the stop
check; another thread runs `shutdown_now` from its first to its last queue
clear; then the first thread takes the queue lock and pushes. -/
def late_push_events : List (Event Nat) :=
  [.enqueue_begin (some 7) (-1) 0, .set_stop, .clear_queue 0, .enqueue_commit 0]

/-- The pool `WorkStealingThreadPool(1, 2)` with the callables 7 and then 8
enqueued on worker 0. -/
def pool_1_2_full : Pool Nat := ⟨[⟨[⟨8, -1⟩, ⟨7, -1⟩], 0⟩], false, 2⟩

/-! ## Helper lemmas: lists -/

theorem getElem?_split {β : Type} {l : List β} {i : Nat} {x : β} (h : l[i]? = some x) :
    ∃ l1 l2, l = l1 ++ x :: l2 ∧ l1.length = i := by
  induction l generalizing i with
  | nil => simp at h
  | cons a l ih =>
    cases i with
    | zero =>
      simp at h
      exact ⟨[], l, by simp [h], rfl⟩
    | succ i =>
      simp at h
      obtain ⟨l1, l2, h1, h2⟩ := ih h
      exact ⟨a :: l1, l2, by simp [h1], by simp [h2]⟩

theorem set_split {β : Type} (l1 l2 : List β) (x y : β) :
    (l1 ++ x :: l2).set l1.length y = l1 ++ y :: l2 := by
  induction l1 with
  | nil => rfl
  | cons a l1 ih => simp [ih]

theorem modify_split {β : Type} (f : β → β) (l1 l2 : List β) (x : β) :
    List.modify f l1.length (l1 ++ x :: l2) = l1 ++ f x :: l2 := by
  induction l1 with
  | nil => rfl
  | cons a l1 ih => simp [ih]

theorem modify_out_of_range {β : Type} (f : β → β) (l : List β) (i : Nat) (h : l[i]? = none) :
    List.modify f i l = l := by
  induction l generalizing i with
  | nil => simp
  | cons a l ih =>
    cases i with
    | zero => simp at h
    | succ i =>
      simp at h
      simp [ih i (by simpa using h)]

theorem getElem?_mid {β : Type} (l1 l2 : List β) (x : β) :
    (l1 ++ x :: l2)[l1.length]? = some x := by
  induction l1 with
  | nil => simp
  | cons a l1 ih => simpa using ih

/-! ## Helper lemmas: the calls, case by case -/

theorem queue_size_split {α : Type} (l1 l2 : List (Worker α)) (w : Worker α) :
    queue_size (l1 ++ w :: l2) l1.length = w.queue.length := by
  simp only [queue_size, getElem?_mid]

theorem find_target_spec {α : Type} (d : Int) (ws : List (Worker α)) (i target : Nat) :
    ((∀ w ∈ ws, w.numa_node ≠ d) ∧ find_target d ws i target = target) ∨
    (∃ l1 w l2, ws = l1 ++ w :: l2 ∧ w.numa_node = d ∧ (∀ v ∈ l1, v.numa_node ≠ d) ∧
      find_target d ws i target = i + l1.length) := by
  induction ws generalizing i with
  | nil => left; simp [find_target]
  | cons a ws ih =>
    by_cases ha : a.numa_node = d
    · right
      exact ⟨[], a, ws, rfl, ha, by simp, by simp [find_target, ha]⟩
    · rcases ih (i + 1) with ⟨h1, h2⟩ | ⟨l1, w, l2, h1, h2, h3, h4⟩
      · left
        refine ⟨?_, by simp [find_target, ha, h2]⟩
        intro w hw
        rcases List.mem_cons.mp hw with rfl | hw
        · exact ha
        · exact h1 w hw
      · right
        refine ⟨a :: l1, w, l2, by simp [h1], h2, ?_, ?_⟩
        · intro v hv
          rcases List.mem_cons.mp hv with rfl | hv
          · exact ha
          · exact h3 v hv
        · simp [find_target, ha, h4]; omega

theorem route_lt {α : Type} (numa : NumaEnv) (ws : List (Worker α)) (d : Int) (draw : Nat)
    (h : ws ≠ []) : route numa ws d draw < ws.length := by
  have hlen : 0 < ws.length := List.length_pos.mpr h
  unfold route
  split
  · rcases find_target_spec d ws 0 0 with ⟨_, h2⟩ | ⟨l1, w, l2, h1, _, _, h4⟩
    · rw [h2]; exact hlen
    · rw [h4, h1]; simp
  · unfold uniform_int_distribution
    have : draw % (ws.length - 1 - 0 + 1) < ws.length - 1 - 0 + 1 := Nat.mod_lt _ (by omega)
    omega

theorem enqueue_cases {α : Type} (numa : NumaEnv) (p : Pool α) (f : α) (d : Int) (draw : Nat) :
    (p.stop = true ∧ enqueue numa p (some f) d draw = (.error .PoolClosed, p)) ∨
    (p.stop = false ∧ p.queue_capacity ≤ queue_size p.workers (route numa p.workers d draw) ∧
      enqueue numa p (some f) d draw = (.error .QueueFull, p)) ∨
    (p.stop = false ∧ queue_size p.workers (route numa p.workers d draw) < p.queue_capacity ∧
      p.workers[route numa p.workers d draw]? = none ∧
      enqueue numa p (some f) d draw = (.ok, p)) ∨
    (p.stop = false ∧ ∃ l1 w l2, p.workers = l1 ++ w :: l2 ∧
      l1.length = route numa p.workers d draw ∧ w.queue.length < p.queue_capacity ∧
      enqueue numa p (some f) d draw =
        (.ok, { p with workers := l1 ++ { w with queue := ⟨f, d⟩ :: w.queue } :: l2 })) := by
  obtain ⟨ws, stop, cap⟩ := p
  cases stop with
  | true => left; simp [enqueue]
  | false =>
    right
    by_cases hc : cap ≤ queue_size ws (route numa ws d draw)
    · left; simp [enqueue, hc]
    · right
      have hc2 : queue_size ws (route numa ws d draw) < cap := by omega
      cases hw : ws[route numa ws d draw]? with
      | none =>
        left
        refine ⟨rfl, hc2, rfl, ?_⟩
        simp only [enqueue, ge_iff_le, hc, push_front]
        rw [modify_out_of_range _ _ _ hw]
        simp
      | some w =>
        right
        obtain ⟨l1, l2, h1, h2⟩ := getElem?_split hw
        refine ⟨rfl, l1, w, l2, h1, h2, ?_, ?_⟩
        · simpa [queue_size, hw] using hc2
        · simp only [enqueue, ge_iff_le, hc, push_front]
          rw [← h2]
          have h3 : List.modify (fun w => { w with queue := ⟨f, d⟩ :: w.queue }) l1.length ws
              = l1 ++ { w with queue := ⟨f, d⟩ :: w.queue } :: l2 := by
            rw [h1]; exact modify_split _ l1 l2 w
          rw [h3]
          simp

theorem try_pop_local_cases {α : Type} (p : Pool α) (i : Nat) :
    (try_pop_local p i = (none, p) ∧ ∀ w, p.workers[i]? = some w → w.queue = []) ∨
    (∃ l1 w l2 t rest, p.workers = l1 ++ w :: l2 ∧ l1.length = i ∧ w.queue = t :: rest ∧
      try_pop_local p i = (some t, { p with workers := l1 ++ { w with queue := rest } :: l2 })) := by
  cases hw : p.workers[i]? with
  | none => left; simp [try_pop_local, hw]
  | some w =>
    cases hq : w.queue with
    | nil =>
      left
      refine ⟨?_, ?_⟩
      · simp only [try_pop_local, hw]; rw [hq]
      · intro v hv; cases hv; exact hq
    | cons t rest =>
      right
      obtain ⟨l1, l2, h1, h2⟩ := getElem?_split hw
      refine ⟨l1, w, l2, t, rest, h1, h2, hq, ?_⟩
      simp only [try_pop_local, hw]
      rw [hq, ← h2]
      simp only
      nth_rewrite 1 [h1]
      rw [set_split]

theorem try_steal_cases {α : Type} (p : Pool α) (i : Nat) :
    (try_steal p i = (none, p) ∧ ∀ w, p.workers[i]? = some w → w.queue = []) ∨
    (∃ l1 w l2 t rest, p.workers = l1 ++ w :: l2 ∧ l1.length = i ∧ w.queue = rest ++ [t] ∧
      try_steal p i = (some t, { p with workers := l1 ++ { w with queue := rest } :: l2 })) := by
  cases hw : p.workers[i]? with
  | none => left; simp [try_steal, hw]
  | some w =>
    cases hq : w.queue.getLast? with
    | none =>
      left
      refine ⟨?_, ?_⟩
      · simp only [try_steal, hw]; rw [hq]
      · intro v hv; cases hv; simpa using hq
    | some t =>
      right
      obtain ⟨l1, l2, h1, h2⟩ := getElem?_split hw
      obtain ⟨rest, hrest⟩ := List.getLast?_eq_some_iff.mp hq
      refine ⟨l1, w, l2, t, rest, h1, h2, hrest, ?_⟩
      simp only [try_steal, hw]
      rw [hq, ← h2]
      simp only
      nth_rewrite 1 [h1]
      rw [set_split, hrest, List.dropLast_concat]

/-! ## Helper lemmas: what every call preserves -/

theorem step_nodes {α : Type} (numa : NumaEnv) (p : Pool α) (op : Op α) :
    nodes (step numa p op) = nodes p := by
  cases op with
  | enqueue task d draw =>
    cases task with
    | none => simp only [step, enqueue]; split <;> rfl
    | some f =>
      rcases enqueue_cases numa p f d draw with ⟨_, h⟩ | ⟨_, _, h⟩ | ⟨_, _, _, h⟩ |
        ⟨_, l1, w, l2, h1, _, _, h⟩
      · simp [step, h]
      · simp [step, h]
      · simp [step, h]
      · simp [step, h, nodes, h1]
  | try_pop_local i =>
    rcases try_pop_local_cases p i with ⟨h, _⟩ | ⟨l1, w, l2, t, rest, h1, _, _, h⟩
    · simp [step, h]
    · simp [step, h, nodes, h1]
  | try_steal i =>
    rcases try_steal_cases p i with ⟨h, _⟩ | ⟨l1, w, l2, t, rest, h1, _, _, h⟩
    · simp [step, h]
    · simp [step, h, nodes, h1]
  | shutdown => rfl
  | shutdown_now => simp [step, shutdown_now, nodes]

theorem step_queue_capacity {α : Type} (numa : NumaEnv) (p : Pool α) (op : Op α) :
    (step numa p op).queue_capacity = p.queue_capacity := by
  cases op with
  | enqueue task d draw =>
    cases task with
    | none => simp only [step, enqueue]; split <;> rfl
    | some f =>
      rcases enqueue_cases numa p f d draw with ⟨_, h⟩ | ⟨_, _, h⟩ | ⟨_, _, _, h⟩ |
        ⟨_, l1, w, l2, _, _, _, h⟩ <;> simp [step, h]
  | try_pop_local i =>
    rcases try_pop_local_cases p i with ⟨h, _⟩ | ⟨l1, w, l2, t, rest, _, _, _, h⟩ <;>
      simp [step, h]
  | try_steal i =>
    rcases try_steal_cases p i with ⟨h, _⟩ | ⟨l1, w, l2, t, rest, _, _, _, h⟩ <;>
      simp [step, h]
  | shutdown => rfl
  | shutdown_now => rfl

theorem step_bounded {α : Type} (numa : NumaEnv) (p : Pool α) (op : Op α)
    (hb : ∀ w ∈ p.workers, w.queue.length ≤ p.queue_capacity) :
    ∀ w ∈ (step numa p op).workers, w.queue.length ≤ p.queue_capacity := by
  cases op with
  | enqueue task d draw =>
    cases task with
    | none =>
      have : (enqueue numa p none d draw).2 = p := by simp only [enqueue]; split <;> rfl
      simpa [step, this] using hb
    | some f =>
      rcases enqueue_cases numa p f d draw with ⟨_, h⟩ | ⟨_, _, h⟩ | ⟨_, _, _, h⟩ |
        ⟨_, l1, w, l2, h1, _, h3, h⟩
      · simpa [step, h] using hb
      · simpa [step, h] using hb
      · simpa [step, h] using hb
      · rw [h1] at hb
        intro v hv
        simp only [step, h, List.mem_append, List.mem_cons] at hv
        rcases hv with hv | rfl | hv
        · exact hb v (by simp [hv])
        · simp only [List.length_cons]; omega
        · exact hb v (by simp [hv])
  | try_pop_local i =>
    rcases try_pop_local_cases p i with ⟨h, _⟩ | ⟨l1, w, l2, t, rest, h1, _, h3, h⟩
    · simpa [step, h] using hb
    · rw [h1] at hb
      intro v hv
      simp only [step, h, List.mem_append, List.mem_cons] at hv
      rcases hv with hv | rfl | hv
      · exact hb v (by simp [hv])
      · have := hb w (by simp)
        rw [h3] at this
        simp only [List.length_cons] at this
        simp only
        omega
      · exact hb v (by simp [hv])
  | try_steal i =>
    rcases try_steal_cases p i with ⟨h, _⟩ | ⟨l1, w, l2, t, rest, h1, _, h3, h⟩
    · simpa [step, h] using hb
    · rw [h1] at hb
      intro v hv
      simp only [step, h, List.mem_append, List.mem_cons] at hv
      rcases hv with hv | rfl | hv
      · exact hb v (by simp [hv])
      · have := hb w (by simp)
        rw [h3] at this
        simp only [List.length_append, List.length_singleton] at this
        simp only
        omega
      · exact hb v (by simp [hv])
  | shutdown => simpa [step, shutdown] using hb
  | shutdown_now =>
    intro v hv
    simp only [step, shutdown_now, List.mem_map] at hv
    obtain ⟨u, _, rfl⟩ := hv
    simp

theorem run_nodes {α : Type} (numa : NumaEnv) (p : Pool α) (ops : List (Op α)) :
    nodes (run numa p ops) = nodes p := by
  induction ops generalizing p with
  | nil => rfl
  | cons op ops ih =>
    show nodes (run numa (step numa p op) ops) = nodes p
    rw [ih, step_nodes]

theorem run_queue_capacity {α : Type} (numa : NumaEnv) (p : Pool α) (ops : List (Op α)) :
    (run numa p ops).queue_capacity = p.queue_capacity := by
  induction ops generalizing p with
  | nil => rfl
  | cons op ops ih =>
    show (run numa (step numa p op) ops).queue_capacity = p.queue_capacity
    rw [ih, step_queue_capacity]

theorem run_bounded {α : Type} (numa : NumaEnv) (p : Pool α) (ops : List (Op α))
    (hb : ∀ w ∈ p.workers, w.queue.length ≤ p.queue_capacity) :
    ∀ w ∈ (run numa p ops).workers, w.queue.length ≤ p.queue_capacity := by
  induction ops generalizing p with
  | nil => exact hb
  | cons op ops ih =>
    show ∀ w ∈ (run numa (step numa p op) ops).workers, w.queue.length ≤ p.queue_capacity
    have h := ih (step numa p op) (by rw [step_queue_capacity]; exact step_bounded numa p op hb)
    rwa [step_queue_capacity] at h

/-! ## Helper lemmas: the constructor -/

theorem construct_ok {α : Type} {numa : NumaEnv} {num_threads queue_capacity : Nat}
    {p0 : Pool α} (h : construct numa num_threads queue_capacity = .ok p0) :
    num_threads ≠ 0 ∧ 0 ≤ numa.numa_available ∧
    p0 = { workers := (List.range num_threads).map
             (fun i => { queue := [], numa_node := assigned_node (numa.numa_max_node + 1) i })
           stop := false
           queue_capacity := queue_capacity } := by
  unfold construct at h
  split at h
  · cases h
  · split at h
    · cases h
    · rename_i h1 h2
      refine ⟨h1, by omega, ?_⟩
      simp only [Except.ok.injEq] at h
      exact h.symm

theorem construct_succeeds {α : Type} (numa : NumaEnv) (num_threads queue_capacity : Nat)
    (h1 : num_threads ≠ 0) (h2 : 0 ≤ numa.numa_available) :
    construct numa num_threads queue_capacity =
      (.ok { workers := (List.range num_threads).map
               (fun i => { queue := [], numa_node := assigned_node (numa.numa_max_node + 1) i })
             stop := false
             queue_capacity := queue_capacity } : Except ConstructError (Pool α)) := by
  unfold construct
  rw [if_neg h1, if_neg (by omega)]

theorem reachable_nodes {α : Type} {numa : NumaEnv} {p : Pool α} (h : Reachable numa p) :
    ∃ n, n ≠ 0 ∧ nodes p = (List.range n).map (assigned_node (numa.numa_max_node + 1)) := by
  obtain ⟨n, c, p0, ops, h1, h2⟩ := h
  obtain ⟨hn, _, hp⟩ := construct_ok h1
  refine ⟨n, hn, ?_⟩
  rw [← h2, run_nodes, hp]
  simp [nodes]

theorem reachable_workers_ne_nil {α : Type} {numa : NumaEnv} {p : Pool α}
    (h : Reachable numa p) : p.workers ≠ [] := by
  obtain ⟨n, hn, h1⟩ := reachable_nodes h
  intro h2
  have : (nodes p).length = n := by rw [h1]; simp
  rw [nodes, h2] at this
  simp at this
  exact hn this.symm

/-! ## C1: the capacity invariant -/

/-- C1. For every pool constructed with queue capacity `C` and every finite
sequence of calls (`enqueue` with any work, hint and generator output,
`try_pop_local` and `try_steal` on any index, `shutdown`, `shutdown_now`), every
worker queue of the state reached holds at most `C` tasks. -/
theorem capacity_invariant {α : Type} (numa : NumaEnv) (num_threads C : Nat) (p0 : Pool α)
    (h : construct numa num_threads C = .ok p0) (ops : List (Op α)) :
    ∀ w ∈ (run numa p0 ops).workers, w.queue.length ≤ C := by
  obtain ⟨_, _, hp⟩ := construct_ok h
  have hb : ∀ w ∈ p0.workers, w.queue.length ≤ p0.queue_capacity := by
    intro w hw
    rw [hp] at hw
    simp only [List.mem_map] at hw
    obtain ⟨i, _, rfl⟩ := hw
    simp
  have hc : p0.queue_capacity = C := by rw [hp]
  rw [← hc]
  exact run_bounded numa p0 ops hb

/-- C1 at `WorkStealingThreadPool(1, 2)` with three submissions, a steal and a
forced shutdown. -/
theorem capacity_invariant_witness :
    construct numa_one_node 1 2 = .ok pool_1_2 ∧
    ∀ w ∈ (run numa_one_node pool_1_2
        [.enqueue (some 7) (-1) 0, .enqueue (some 8) (-1) 5, .enqueue (some 9) 0 0,
         .try_steal 0, .try_pop_local 0, .shutdown_now]).workers,
      w.queue.length ≤ 2 :=
  ⟨rfl, capacity_invariant numa_one_node 1 2 pool_1_2 rfl _⟩

/-! ## C8: round-robin placement -/

/-- C8. For every worker count `N ≥ 1` and every domain count `D ≥ 1` reported
by libnuma (`numa_max_node() + 1 = D`, NUMA available), construction succeeds
with `N` workers, worker `i` is assigned node `i mod D` for every `i < N`, and
when `N ≥ D` every node `0..D-1` has at least one worker. -/
theorem round_robin_placement {α : Type} (numa : NumaEnv) (N C D : Nat) (hN : 1 ≤ N)
    (hD : 1 ≤ D) (havail : 0 ≤ numa.numa_available) (hmax : numa.numa_max_node + 1 = D) :
    ∃ p0 : Pool α, construct numa N C = .ok p0 ∧ p0.workers.length = N ∧
      (∀ i : Nat, i < N → ∃ w, p0.workers[i]? = some w ∧ w.numa_node = ((i % D : Nat) : Int)) ∧
      (D ≤ N → ∀ d : Nat, d < D → ∃ w ∈ p0.workers, w.numa_node = (d : Int)) := by
  have hnode : ∀ i : Nat, assigned_node (numa.numa_max_node + 1) i = ((i % D : Nat) : Int) := by
    intro i
    rw [hmax]
    unfold assigned_node
    split
    · push_cast; rfl
    · rename_i h
      have h1 : D = 1 := by omega
      subst h1
      simp
  refine ⟨_, construct_succeeds numa N C (by omega) havail, by simp, ?_, ?_⟩
  · intro i hi
    refine ⟨⟨[], assigned_node (numa.numa_max_node + 1) i⟩, ?_, hnode i⟩
    simp [List.getElem?_map, List.getElem?_range hi]
  · intro hDN d hd
    refine ⟨⟨[], assigned_node (numa.numa_max_node + 1) d⟩, ?_, ?_⟩
    · simp only [List.mem_map, List.mem_range]
      exact ⟨d, by omega, rfl⟩
    · simp only
      rw [hnode d, Nat.mod_eq_of_lt hd]

/-- C8 at three workers on a two-node machine: nodes 0, 1, 0. -/
theorem round_robin_placement_witness :
    ∃ p0 : Pool Nat, construct ⟨0, 1⟩ 3 5 = .ok p0 ∧ p0.workers.length = 3 ∧
      (∀ i : Nat, i < 3 → ∃ w, p0.workers[i]? = some w ∧ w.numa_node = ((i % 2 : Nat) : Int)) ∧
      (2 ≤ 3 → ∀ d : Nat, d < 2 → ∃ w ∈ p0.workers, w.numa_node = (d : Int)) :=
  round_robin_placement ⟨0, 1⟩ 3 5 2 (by decide) (by decide) (by decide) (by decide)

/-! ## C2: QueueFull -/

/-- C2. In every reachable pool state that is not stopped and for every non-empty
work, the routed target is a worker of the pool, `enqueue` fails with
`QueueFull` exactly when the target worker's queue already holds at least
`queue_capacity` tasks, and a failing `enqueue` returns the pool unchanged. In
particular with 1 worker and capacity 2, three submissions without a hint and
with no pop in between give: success, success, `QueueFull`. -/
theorem enqueue_queue_full_iff {α : Type} :
    (∀ (numa : NumaEnv) (p : Pool α), Reachable numa p → p.stop = false →
      ∀ (f : α) (d : Int) (draw : Nat),
        route numa p.workers d draw < p.workers.length ∧
        ((enqueue numa p (some f) d draw).1 = .error .QueueFull ↔
          p.queue_capacity ≤ queue_size p.workers (route numa p.workers d draw)) ∧
        ((enqueue numa p (some f) d draw).1 ≠ .ok → (enqueue numa p (some f) d draw).2 = p)) ∧
    (∀ (numa : NumaEnv) (p0 : Pool α), construct numa 1 2 = .ok p0 →
      ∀ (f1 f2 f3 : α) (d1 d2 d3 : Nat),
        (enqueue_all numa p0 [⟨f1, -1, d1⟩, ⟨f2, -1, d2⟩, ⟨f3, -1, d3⟩]).1 =
          [.ok, .ok, .error .QueueFull]) := by
  refine ⟨?_, ?_⟩
  · intro numa p hr hs f d draw
    refine ⟨route_lt numa p.workers d draw (reachable_workers_ne_nil hr), ?_, ?_⟩
    · rcases enqueue_cases numa p f d draw with ⟨h0, _⟩ | ⟨_, h1, h⟩ | ⟨_, h1, _, h⟩ |
        ⟨_, l1, w, l2, h1, h2, h3, h⟩
      · rw [hs] at h0; cases h0
      · simp [h, h1]
      · simp only [h]
        constructor
        · intro h'; cases h'
        · intro h'; omega
      · simp only [h]
        constructor
        · intro h'; cases h'
        · intro h'
          have : queue_size p.workers (route numa p.workers d draw) = w.queue.length := by
            rw [← h2, h1]
            exact queue_size_split l1 l2 w
          omega
    · rcases enqueue_cases numa p f d draw with ⟨_, h⟩ | ⟨_, _, h⟩ | ⟨_, _, _, h⟩ |
        ⟨_, l1, w, l2, _, _, _, h⟩ <;> simp [h]
  · intro numa p0 h f1 f2 f3 d1 d2 d3
    obtain ⟨_, _, hp⟩ := construct_ok h
    subst hp
    simp [enqueue_all, enqueue, route, uniform_int_distribution, queue_size, push_front,
      assigned_node, List.range_succ, Nat.mod_one]

/-- C2 at the freshly constructed `WorkStealingThreadPool(1, 2)`, which is
running and reachable. -/
theorem enqueue_queue_full_iff_witness :
    Reachable numa_one_node pool_1_2 ∧ pool_1_2.stop = false ∧
    (route numa_one_node pool_1_2.workers (-1) 4 < pool_1_2.workers.length ∧
      ((enqueue numa_one_node pool_1_2 (some 7) (-1) 4).1 = .error .QueueFull ↔
        pool_1_2.queue_capacity ≤
          queue_size pool_1_2.workers (route numa_one_node pool_1_2.workers (-1) 4)) ∧
      ((enqueue numa_one_node pool_1_2 (some 7) (-1) 4).1 ≠ .ok →
        (enqueue numa_one_node pool_1_2 (some 7) (-1) 4).2 = pool_1_2)) ∧
    (enqueue_all numa_one_node pool_1_2 [⟨7, -1, 0⟩, ⟨8, -1, 1⟩, ⟨9, -1, 2⟩]).1 =
      [.ok, .ok, .error .QueueFull] :=
  ⟨⟨1, 2, pool_1_2, [], rfl, rfl⟩, rfl,
   (@enqueue_queue_full_iff Nat).1 numa_one_node pool_1_2 ⟨1, 2, pool_1_2, [], rfl, rfl⟩ rfl
     7 (-1) 4,
   (@enqueue_queue_full_iff Nat).2 numa_one_node pool_1_2 rfl 7 8 9 0 1 2⟩

/-! ## C3: empty work -/

/-- C3, as stated, fails: on the pool `WorkStealingThreadPool(1, 2)` after
`shutdown()`, `enqueue` of an empty `std::function` throws the "Cannot enqueue
tasks after shutdown" error (`PoolClosed`), not `InvalidArgument`, because the
stop check (line 74) comes before the null check (line 77). -/
theorem enqueue_null_on_stopped_pool :
    construct numa_one_node 1 2 = .ok pool_1_2 ∧
    (enqueue numa_one_node (shutdown pool_1_2) none (-1) 0).1 = .error .PoolClosed ∧
    (enqueue numa_one_node (shutdown pool_1_2) none (-1) 0).1 ≠ .error .InvalidArgument :=
  ⟨rfl, by decide, by decide⟩

/-- C3, amended. For every pool state, `enqueue` called with empty work fails and
leaves the pool (every queue) unchanged; the failure is `InvalidArgument` when the
stop flag is not set and `PoolClosed` when it is set; it is never `QueueFull`. -/
theorem enqueue_null_work {α : Type} (numa : NumaEnv) (p : Pool α) (d : Int) (draw : Nat) :
    enqueue numa p none d draw =
      (.error (if p.stop then .PoolClosed else .InvalidArgument), p) := by
  unfold enqueue
  split <;> rfl

/-! ## C10: forced shutdown -/

theorem enqueue_eq_begin_commit {α : Type} (numa : NumaEnv) (p : Pool α) (task : Option α)
    (d : Int) (draw : Nat) :
    enqueue numa p task d draw =
      match enqueue_begin numa p task d draw with
      | .error e => (.error e, p)
      | .pending c => enqueue_commit p c := by
  by_cases h : p.stop = true <;> cases task <;>
    simp [enqueue, enqueue_begin, enqueue_commit, h]

theorem enqueue_begin_stopped {α : Type} (numa : NumaEnv) (p : Pool α) (task : Option α)
    (d : Int) (draw : Nat) (h : p.stop = true) :
    enqueue_begin numa p task d draw = .error .PoolClosed := by
  simp [enqueue_begin, h]

theorem tasks_at_mid {α : Type} (l1 l2 : List (Worker α)) (w : Worker α) :
    tasks_at (l1 ++ w :: l2) l1.length = w.queue := by
  simp only [tasks_at, getElem?_mid]

theorem tasks_at_update {α : Type} (l1 l2 : List (Worker α)) (w w' : Worker α) (i : Nat)
    (h : i ≠ l1.length) : tasks_at (l1 ++ w' :: l2) i = tasks_at (l1 ++ w :: l2) i := by
  induction l1 generalizing i with
  | nil =>
    cases i with
    | zero => exact absurd rfl h
    | succ i => simp [tasks_at]
  | cons a l1 ih =>
    cases i with
    | zero => simp [tasks_at]
    | succ i =>
      have := ih i (by simpa using h)
      simpa [tasks_at] using this

theorem tasks_at_shrink {α : Type} (l1 l2 : List (Worker α)) (w w' : Worker α) (i : Nat)
    (h : ∀ x ∈ w'.queue, x ∈ w.queue) :
    ∀ x ∈ tasks_at (l1 ++ w' :: l2) i, x ∈ tasks_at (l1 ++ w :: l2) i := by
  intro x hx
  by_cases hi : i = l1.length
  · subst hi
    rw [tasks_at_mid] at hx ⊢
    exact h x hx
  · rwa [tasks_at_update l1 l2 w w' i hi] at hx

theorem try_pop_local_tasks_at {α : Type} (p : Pool α) (j i : Nat) :
    ∀ x ∈ tasks_at (try_pop_local p j).2.workers i, x ∈ tasks_at p.workers i := by
  rcases try_pop_local_cases p j with ⟨h, _⟩ | ⟨l1, w, l2, t, rest, h1, _, h3, h⟩
  · rw [h]; exact fun x hx => hx
  · rw [h, h1]
    exact tasks_at_shrink l1 l2 w _ i (by intro x hx; rw [h3]; simp [hx])

theorem try_steal_tasks_at {α : Type} (p : Pool α) (j i : Nat) :
    ∀ x ∈ tasks_at (try_steal p j).2.workers i, x ∈ tasks_at p.workers i := by
  rcases try_steal_cases p j with ⟨h, _⟩ | ⟨l1, w, l2, t, rest, h1, _, h3, h⟩
  · rw [h]; exact fun x hx => hx
  · rw [h, h1]
    exact tasks_at_shrink l1 l2 w _ i (by intro x hx; rw [h3]; simp [hx])

theorem clear_queue_tasks_at {α : Type} (p : Pool α) (j i : Nat) :
    ∀ x ∈ tasks_at (clear_queue p j).workers i, x ∈ tasks_at p.workers i := by
  cases hw : p.workers[j]? with
  | none =>
    simp only [clear_queue]
    rw [modify_out_of_range _ _ _ hw]
    exact fun x hx => hx
  | some w =>
    obtain ⟨l1, l2, h1, h2⟩ := getElem?_split hw
    simp only [clear_queue]
    rw [h1, ← h2, modify_split]
    exact tasks_at_shrink l1 l2 w _ i (by intro x hx; simp at hx)

theorem clear_queue_tasks_at_self {α : Type} (p : Pool α) (i : Nat) :
    tasks_at (clear_queue p i).workers i = [] := by
  cases hw : p.workers[i]? with
  | none =>
    simp only [clear_queue]
    rw [modify_out_of_range _ _ _ hw]
    simp [tasks_at, hw]
  | some w =>
    obtain ⟨l1, l2, h1, h2⟩ := getElem?_split hw
    simp only [clear_queue]
    rw [h1, ← h2, modify_split, tasks_at_mid]

theorem enqueue_commit_tasks_at {α : Type} (p : Pool α) (c : PendingEnqueue α) (i : Nat) :
    ∀ x ∈ tasks_at (enqueue_commit p c).2.workers i, x = c.task ∨ x ∈ tasks_at p.workers i := by
  intro x hx
  unfold enqueue_commit at hx
  split at hx
  · exact Or.inr hx
  · simp only [push_front] at hx
    cases hw : p.workers[c.target]? with
    | none =>
      rw [modify_out_of_range _ _ _ hw] at hx
      exact Or.inr hx
    | some w =>
      obtain ⟨l1, l2, h1, h2⟩ := getElem?_split hw
      rw [h1, ← h2, modify_split] at hx
      rw [h1]
      by_cases hi : i = l1.length
      · subst hi
        rw [tasks_at_mid] at hx ⊢
        simp only [List.mem_cons] at hx
        exact hx
      · rw [tasks_at_update l1 l2 w _ i hi] at hx
        exact Or.inr hx

theorem enqueue_commit_stop {α : Type} (p : Pool α) (c : PendingEnqueue α) :
    (enqueue_commit p c).2.stop = p.stop := by
  unfold enqueue_commit
  split <;> rfl

theorem try_pop_local_stop {α : Type} (p : Pool α) (i : Nat) :
    (try_pop_local p i).2.stop = p.stop := by
  rcases try_pop_local_cases p i with ⟨h, _⟩ | ⟨l1, w, l2, t, rest, _, _, _, h⟩ <;> rw [h]

theorem try_steal_stop {α : Type} (p : Pool α) (i : Nat) :
    (try_steal p i).2.stop = p.stop := by
  rcases try_steal_cases p i with ⟨h, _⟩ | ⟨l1, w, l2, t, rest, _, _, _, h⟩ <;> rw [h]

theorem try_pop_local_of_empty {α : Type} (p : Pool α) (i : Nat)
    (h : tasks_at p.workers i = []) : try_pop_local p i = (none, p) := by
  rcases try_pop_local_cases p i with ⟨h1, _⟩ | ⟨l1, w, l2, t, rest, h1, h2, h3, _⟩
  · exact h1
  · rw [h1, ← h2, tasks_at_mid, h3] at h
    cases h

theorem try_steal_of_empty {α : Type} (p : Pool α) (i : Nat)
    (h : tasks_at p.workers i = []) : try_steal p i = (none, p) := by
  rcases try_steal_cases p i with ⟨h1, _⟩ | ⟨l1, w, l2, t, rest, h1, h2, h3, _⟩
  · exact h1
  · rw [h1, ← h2, tasks_at_mid, h3] at h
    simp at h

theorem fire_stop {α : Type} (numa : NumaEnv) (s : System α) (ev : Event α)
    (hs : s.pool.stop = true) : (fire numa s ev).pool.stop = true := by
  cases ev with
  | enqueue_begin task d draw =>
    simp only [fire, enqueue_begin_stopped numa s.pool task d draw hs]
    exact hs
  | enqueue_commit k =>
    simp only [fire]
    split
    · exact hs
    · simp only [enqueue_commit_stop]; exact hs
  | try_pop_local i => simp only [fire, try_pop_local_stop]; exact hs
  | try_steal i => simp only [fire, try_steal_stop]; exact hs
  | set_stop => rfl
  | clear_queue i => exact hs

theorem fire_pending {α : Type} (numa : NumaEnv) (s : System α) (ev : Event α)
    (hs : s.pool.stop = true) : ∀ c ∈ (fire numa s ev).pending, c ∈ s.pending := by
  cases ev with
  | enqueue_begin task d draw =>
    simp only [fire, enqueue_begin_stopped numa s.pool task d draw hs]
    exact fun c hc => hc
  | enqueue_commit k =>
    simp only [fire]
    split
    · exact fun c hc => hc
    · exact fun c hc => List.mem_of_mem_eraseIdx hc
  | try_pop_local i => exact fun c hc => hc
  | try_steal i => exact fun c hc => hc
  | set_stop => exact fun c hc => hc
  | clear_queue i => exact fun c hc => hc

theorem fire_tasks_at {α : Type} (numa : NumaEnv) (s : System α) (ev : Event α)
    (hs : s.pool.stop = true) (i : Nat) :
    ∀ x ∈ tasks_at (fire numa s ev).pool.workers i,
      x ∈ tasks_at s.pool.workers i ∨ ∃ c ∈ s.pending, c.task = x := by
  intro x hx
  cases ev with
  | enqueue_begin task d draw =>
    simp only [fire, enqueue_begin_stopped numa s.pool task d draw hs] at hx
    exact Or.inl hx
  | enqueue_commit k =>
    simp only [fire] at hx
    split at hx
    · exact Or.inl hx
    · rename_i c hc
      rcases enqueue_commit_tasks_at s.pool c i x hx with h | h
      · exact Or.inr ⟨c, List.getElem?_mem hc, h.symm⟩
      · exact Or.inl h
  | try_pop_local j => exact Or.inl (try_pop_local_tasks_at s.pool j i x hx)
  | try_steal j => exact Or.inl (try_steal_tasks_at s.pool j i x hx)
  | set_stop => exact Or.inl hx
  | clear_queue j => exact Or.inl (clear_queue_tasks_at s.pool j i x hx)

theorem fire_all_stopped {α : Type} (numa : NumaEnv) (evs : List (Event α)) :
    ∀ s : System α, s.pool.stop = true →
      (fire_all numa s evs).pool.stop = true ∧
      (∀ c ∈ (fire_all numa s evs).pending, c ∈ s.pending) ∧
      ∀ (i : Nat), ∀ x ∈ tasks_at (fire_all numa s evs).pool.workers i,
        x ∈ tasks_at s.pool.workers i ∨ ∃ c ∈ s.pending, c.task = x := by
  induction evs with
  | nil => intro s hs; exact ⟨hs, fun c hc => hc, fun i x hx => Or.inl hx⟩
  | cons ev evs ih =>
    intro s hs
    obtain ⟨h1, h2, h3⟩ := ih (fire numa s ev) (fire_stop numa s ev hs)
    refine ⟨h1, fun c hc => fire_pending numa s ev hs c (h2 c hc), ?_⟩
    intro i x hx
    rcases h3 i x hx with h | ⟨c, hc, hcx⟩
    · exact fire_tasks_at numa s ev hs i x h
    · exact Or.inr ⟨c, fire_pending numa s ev hs c hc, hcx⟩

theorem fire_all_append {α : Type} (numa : NumaEnv) (s : System α) (evs1 evs2 : List (Event α)) :
    fire_all numa s (evs1 ++ evs2) = fire_all numa (fire_all numa s evs1) evs2 := by
  simp [fire_all, List.foldl_append]

theorem fire_all_clears {α : Type} (numa : NumaEnv) (s : System α) (n : Nat) :
    (fire_all numa s ((List.range n).map .clear_queue)).pending = s.pending ∧
    (fire_all numa s ((List.range n).map .clear_queue)).pool.stop = s.pool.stop ∧
    (fire_all numa s ((List.range n).map .clear_queue)).pool.queue_capacity =
      s.pool.queue_capacity ∧
    ∀ j : Nat, (fire_all numa s ((List.range n).map .clear_queue)).pool.workers[j]? =
      if j < n then (s.pool.workers[j]?).map (fun w => { w with queue := [] })
      else s.pool.workers[j]? := by
  induction n with
  | zero => simp [fire_all]
  | succ n ih =>
    obtain ⟨h1, h2, h3, h4⟩ := ih
    rw [List.range_succ, List.map_append, fire_all_append]
    simp only [List.map_cons, List.map_nil, fire_all, List.foldl_cons, List.foldl_nil, fire,
      clear_queue]
    simp only [fire_all] at h1 h2 h3 h4
    refine ⟨h1, h2, h3, ?_⟩
    intro j
    rw [List.getElem?_modify, h4 j]
    by_cases hjn : j < n
    · have hne : n ≠ j := by omega
      have hlt : j < n + 1 := by omega
      simp only [hjn, hlt, if_true, hne, if_false]
      cases s.pool.workers[j]? <;> rfl
    · by_cases hj : n = j
      · subst hj
        simp only [lt_irrefl, if_false, if_true, Nat.lt_succ_self]
        cases s.pool.workers[n]? <;> rfl
      · have hlt : ¬ j < n + 1 := by omega
        simp only [hjn, hlt, if_false, hj]
        cases s.pool.workers[j]? <;> rfl

theorem fire_all_shutdown_now_events {α : Type} (numa : NumaEnv) (s : System α) :
    fire_all numa s (shutdown_now_events s.pool.workers.length) =
      ⟨shutdown_now s.pool, s.pending⟩ := by
  have h := fire_all_clears numa (fire numa s .set_stop) s.pool.workers.length
  have e : fire_all numa s (shutdown_now_events s.pool.workers.length) =
      fire_all numa (fire numa s .set_stop)
        ((List.range s.pool.workers.length).map .clear_queue) := rfl
  rw [e]
  generalize fire_all numa (fire numa s .set_stop)
    ((List.range s.pool.workers.length).map .clear_queue) = t at h
  obtain ⟨⟨ws, stop, cap⟩, pend⟩ := t
  obtain ⟨h1, h2, h3, h4⟩ := h
  simp only [fire, set_stop] at h1 h2 h3 h4
  subst h1 h2 h3
  have hws : ws = s.pool.workers.map (fun w => { w with queue := [] }) := by
    apply List.ext_getElem?
    intro j
    rw [h4 j, List.getElem?_map]
    by_cases hj : j < s.pool.workers.length
    · simp [hj]
    · have : s.pool.workers[j]? = none := List.getElem?_eq_none_iff.mpr (by omega)
      simp [hj, this]
  subst hws
  rfl

/-- C10, as stated, fails. On `WorkStealingThreadPool(1, 2)` a thread starts
`enqueue(7)` and passes the stop check of line 74; `shutdown_now` then runs from
`stop = true` to the clear of the last queue, leaving the flag set and the queue
empty; the first thread then takes the queue lock (line 96, which does not look
at `stop`) and pushes. The queue is no longer empty although the pool is
stopped, and the next `try_pop_local(0, _)` returns the task. -/
theorem pending_enqueue_pushes_after_shutdown_now :
    fire_all numa_one_node ⟨pool_1_2, []⟩
        (.enqueue_begin (some 7) (-1) 0 :: shutdown_now_events 1) =
      ⟨shutdown_now pool_1_2, [⟨0, ⟨7, -1⟩⟩]⟩ ∧
    late_push_events = .enqueue_begin (some 7) (-1) 0 :: shutdown_now_events 1 ++
      [.enqueue_commit 0] ∧
    (fire_all numa_one_node ⟨pool_1_2, []⟩ late_push_events).pool =
      ⟨[⟨[⟨7, -1⟩], 0⟩], true, 2⟩ ∧
    try_pop_local (fire_all numa_one_node ⟨pool_1_2, []⟩ late_push_events).pool 0 =
      (some ⟨7, -1⟩, ⟨[⟨[], 0⟩], true, 2⟩) ∧
    try_pop_local (fire_all numa_one_node ⟨pool_1_2, []⟩ late_push_events).pool 0 ≠
      (none, (fire_all numa_one_node ⟨pool_1_2, []⟩ late_push_events).pool) := by
  decide

/-- C10, amended. For every pool state and every set of `enqueue` calls in
flight between their stop check and their push:
(1) `shutdown_now` run to its end sets the stop flag and leaves every worker
queue empty, and it is the steps `stop = true`, clear of queue 0, 1, ... in order;
(2) once the flag is set it stays set whatever steps follow, and every `enqueue`
of non-empty work that reads the flag from then on fails with `PoolClosed` and
changes neither a queue nor the set of calls in flight;
(3) once `shutdown_now` has set the flag and later cleared queue `i`, whatever
steps come in between and after, every task in queue `i` is the task of an
`enqueue` call that was already in flight when the flag was set;
(4) so if no `enqueue` call is in flight when the flag is set, queue `i` stays
empty after its clear, and `try_pop_local` and `try_steal` on `i` return no
task. -/
theorem shutdown_now_closes_pool {α : Type} (numa : NumaEnv) (s : System α) :
    ((shutdown_now s.pool).stop = true ∧
      (∀ w ∈ (shutdown_now s.pool).workers, w.queue = []) ∧
      fire_all numa s (shutdown_now_events s.pool.workers.length) =
        ⟨shutdown_now s.pool, s.pending⟩) ∧
    (∀ evs : List (Event α),
      (fire_all numa (fire numa s .set_stop) evs).pool.stop = true ∧
      ∀ (f : α) (d : Int) (draw : Nat),
        enqueue numa (fire_all numa (fire numa s .set_stop) evs).pool (some f) d draw =
          (.error .PoolClosed, (fire_all numa (fire numa s .set_stop) evs).pool) ∧
        fire numa (fire_all numa (fire numa s .set_stop) evs) (.enqueue_begin (some f) d draw) =
          fire_all numa (fire numa s .set_stop) evs) ∧
    (∀ (evs1 : List (Event α)) (i : Nat) (evs2 : List (Event α)),
      ∀ x ∈ tasks_at
          (fire_all numa (fire numa s .set_stop) (evs1 ++ .clear_queue i :: evs2)).pool.workers i,
        ∃ c ∈ s.pending, c.task = x) ∧
    (s.pending = [] → ∀ (evs1 : List (Event α)) (i : Nat) (evs2 : List (Event α)),
      tasks_at
        (fire_all numa (fire numa s .set_stop) (evs1 ++ .clear_queue i :: evs2)).pool.workers i
        = [] ∧
      try_pop_local
        (fire_all numa (fire numa s .set_stop) (evs1 ++ .clear_queue i :: evs2)).pool i =
        (none, (fire_all numa (fire numa s .set_stop) (evs1 ++ .clear_queue i :: evs2)).pool) ∧
      try_steal
        (fire_all numa (fire numa s .set_stop) (evs1 ++ .clear_queue i :: evs2)).pool i =
        (none, (fire_all numa (fire numa s .set_stop) (evs1 ++ .clear_queue i :: evs2)).pool)) := by
  have hstop : (fire numa s .set_stop).pool.stop = true := rfl
  have hlate : ∀ (evs1 : List (Event α)) (i : Nat) (evs2 : List (Event α)),
      ∀ x ∈ tasks_at
          (fire_all numa (fire numa s .set_stop) (evs1 ++ .clear_queue i :: evs2)).pool.workers i,
        ∃ c ∈ s.pending, c.task = x := by
    intro evs1 i evs2 x hx
    obtain ⟨h1, h2, _⟩ := fire_all_stopped numa evs1 (fire numa s .set_stop) hstop
    have e : fire_all numa (fire numa s .set_stop) (evs1 ++ .clear_queue i :: evs2) =
        fire_all numa (fire numa (fire_all numa (fire numa s .set_stop) evs1) (.clear_queue i))
          evs2 := by
      rw [fire_all_append]; rfl
    rw [e] at hx
    generalize fire_all numa (fire numa s .set_stop) evs1 = t at h1 h2 hx
    obtain ⟨_, h4, h5⟩ := fire_all_stopped numa evs2 (fire numa t (.clear_queue i))
      (fire_stop numa t _ h1)
    rcases h5 i x hx with h | ⟨c, hc, hcx⟩
    · have h6 : tasks_at (fire numa t (.clear_queue i)).pool.workers i = [] :=
        clear_queue_tasks_at_self t.pool i
      rw [h6] at h
      cases h
    · exact ⟨c, h2 c hc, hcx⟩
  refine ⟨⟨rfl, ?_, fire_all_shutdown_now_events numa s⟩, ?_, hlate, ?_⟩
  · intro w hw
    simp only [shutdown_now, List.mem_map] at hw
    obtain ⟨u, _, rfl⟩ := hw
    rfl
  · intro evs
    obtain ⟨h1, _, _⟩ := fire_all_stopped numa evs (fire numa s .set_stop) hstop
    generalize fire_all numa (fire numa s .set_stop) evs = t at h1
    refine ⟨h1, ?_⟩
    intro f d draw
    refine ⟨by simp [enqueue, h1], ?_⟩
    simp only [fire, enqueue_begin_stopped numa t.pool (some f) d draw h1]
  · intro hp evs1 i evs2
    have hempty : tasks_at
        (fire_all numa (fire numa s .set_stop) (evs1 ++ .clear_queue i :: evs2)).pool.workers i
        = [] := by
      apply List.eq_nil_iff_forall_not_mem.mpr
      intro x hx
      obtain ⟨c, hc, _⟩ := hlate evs1 i evs2 x hx
      rw [hp] at hc
      cases hc
    exact ⟨hempty, try_pop_local_of_empty _ i hempty, try_steal_of_empty _ i hempty⟩

/-- C10, amended, at the pool `pool_1_2_full` (tasks 8 and 7 queued, no
`enqueue` in flight): after `stop = true`, a pop, the clear of queue 0 and a
further `enqueue` attempt, queue 0 is empty and nothing can be popped or
stolen. -/
theorem shutdown_now_closes_pool_witness :
    (⟨pool_1_2_full, []⟩ : System Nat).pending = [] ∧
    tasks_at
      (fire_all numa_one_node (fire numa_one_node ⟨pool_1_2_full, []⟩ .set_stop)
        ([.try_pop_local 0] ++ .clear_queue 0 ::
          [.enqueue_begin (some 9) (-1) 0, .enqueue_commit 0])).pool.workers 0 = [] ∧
    try_pop_local
      (fire_all numa_one_node (fire numa_one_node ⟨pool_1_2_full, []⟩ .set_stop)
        ([.try_pop_local 0] ++ .clear_queue 0 ::
          [.enqueue_begin (some 9) (-1) 0, .enqueue_commit 0])).pool 0 =
      (none, (fire_all numa_one_node (fire numa_one_node ⟨pool_1_2_full, []⟩ .set_stop)
        ([.try_pop_local 0] ++ .clear_queue 0 ::
          [.enqueue_begin (some 9) (-1) 0, .enqueue_commit 0])).pool) ∧
    try_steal
      (fire_all numa_one_node (fire numa_one_node ⟨pool_1_2_full, []⟩ .set_stop)
        ([.try_pop_local 0] ++ .clear_queue 0 ::
          [.enqueue_begin (some 9) (-1) 0, .enqueue_commit 0])).pool 0 =
      (none, (fire_all numa_one_node (fire numa_one_node ⟨pool_1_2_full, []⟩ .set_stop)
        ([.try_pop_local 0] ++ .clear_queue 0 ::
          [.enqueue_begin (some 9) (-1) 0, .enqueue_commit 0])).pool) :=
  ⟨rfl,
   (shutdown_now_closes_pool numa_one_node ⟨pool_1_2_full, []⟩).2.2.2 rfl
     [.try_pop_local 0] 0 [.enqueue_begin (some 9) (-1) 0, .enqueue_commit 0]⟩

/-! ## C5: fallback routing -/

theorem route_out_of_range {α : Type} (numa : NumaEnv) (ws : List (Worker α)) (d : Int)
    (draw : Nat) (h : d < 0 ∨ numa.numa_max_node < d) (hws : ws ≠ []) :
    route numa ws d draw = draw % ws.length := by
  unfold route
  rw [if_neg (by omega)]
  unfold uniform_int_distribution
  cases ws with
  | nil => exact absurd rfl hws
  | cons a ws => simp

theorem route_uncovered {α : Type} (numa : NumaEnv) (ws : List (Worker α)) (d : Int)
    (draw : Nat) (h1 : 0 ≤ d) (h2 : d ≤ numa.numa_max_node)
    (h3 : ∀ w ∈ ws, w.numa_node ≠ d) : route numa ws d draw = 0 := by
  unfold route
  rw [if_pos ⟨h1, h2⟩]
  rcases find_target_spec d ws 0 0 with ⟨_, h⟩ | ⟨l1, w, l2, h4, h5, _, _⟩
  · exact h
  · exact absurd h5 (h3 w (by simp [h4]))

/-- C5, the code at the failing input. On a four-node machine
`WorkStealingThreadPool(2, 10)` has workers on nodes 0 and 1 only. For the hint
3 (an existing node without a worker) the distribution over `0..1` would give
index 1 on the draw 1, but `enqueue` does not consult it: the search loop ends
without a match, `target` keeps its initial value 0, and the task lands on
worker 0 whatever the draw. -/
theorem uncovered_domain_routes_to_worker_zero :
    construct numa_four_nodes 2 10 = .ok pool_2_10 ∧
    (∀ w ∈ pool_2_10.workers, w.numa_node ≠ 3) ∧
    uniform_int_distribution 0 (pool_2_10.workers.length - 1) 1 = 1 ∧
    (∀ draw : Nat, route numa_four_nodes pool_2_10.workers 3 draw = 0) ∧
    enqueue numa_four_nodes pool_2_10 (some 7) 3 1 =
      (.ok, ⟨[⟨[⟨7, 3⟩], 0⟩, ⟨[], 1⟩], false, 10⟩) := by
  refine ⟨rfl, by decide, by decide, ?_, by decide⟩
  intro draw
  exact route_uncovered numa_four_nodes pool_2_10.workers 3 draw (by decide) (by decide)
    (by decide)

/-! ## Helper lemmas: routing depends on the nodes only -/

theorem find_target_congr {α : Type} (d : Int) (ws ws' : List (Worker α)) (i target : Nat)
    (h : ws.map (fun w => w.numa_node) = ws'.map (fun w => w.numa_node)) :
    find_target d ws i target = find_target d ws' i target := by
  induction ws generalizing ws' i with
  | nil =>
    cases ws' with
    | nil => rfl
    | cons b ws' => simp at h
  | cons a ws ih =>
    cases ws' with
    | nil => simp at h
    | cons b ws' =>
      simp only [List.map_cons, List.cons.injEq] at h
      simp only [find_target, h.1]
      rw [ih ws' (i + 1) h.2]

theorem route_congr {α : Type} (numa : NumaEnv) (ws ws' : List (Worker α)) (d : Int)
    (draw : Nat) (h : ws.map (fun w => w.numa_node) = ws'.map (fun w => w.numa_node)) :
    route numa ws d draw = route numa ws' d draw := by
  have hlen : ws.length = ws'.length := by
    have := congrArg List.length h
    simpa using this
  unfold route
  rw [find_target_congr d ws ws' 0 0 h, hlen]

theorem assigned_node_range (m : Int) (hm : 0 ≤ m) (i : Nat) :
    0 ≤ assigned_node (m + 1) i ∧ assigned_node (m + 1) i ≤ m := by
  unfold assigned_node
  split
  · have h1 : (0 : Int) < m + 1 := by omega
    have h2 := Int.emod_nonneg (i : Int) (by omega : m + 1 ≠ 0)
    have h3 := Int.emod_lt_of_pos (i : Int) h1
    omega
  · omega

theorem reachable_node_range {α : Type} {numa : NumaEnv} {p : Pool α} (h : Reachable numa p)
    (hm : 0 ≤ numa.numa_max_node) (w : Worker α) (hw : w ∈ p.workers) :
    0 ≤ w.numa_node ∧ w.numa_node ≤ numa.numa_max_node := by
  obtain ⟨n, _, hn⟩ := reachable_nodes h
  have h1 : w.numa_node ∈ nodes p := List.mem_map.mpr ⟨w, hw, rfl⟩
  rw [hn] at h1
  obtain ⟨i, _, hi⟩ := List.mem_map.mp h1
  rw [← hi]
  exact assigned_node_range _ hm i

/-! ## Helper lemmas: successive calls on one queue -/

theorem enqueue_all_same_target {α : Type} (numa : NumaEnv) (l1 l2 : List (Worker α))
    (cap : Nat) (ss : List (Submission α)) :
    ∀ w : Worker α,
      (∀ s ∈ ss, route numa (l1 ++ w :: l2) s.numa_node s.draw = l1.length) →
      w.queue.length + ss.length ≤ cap →
      enqueue_all numa ⟨l1 ++ w :: l2, false, cap⟩ ss =
        (List.replicate ss.length .ok,
         ⟨l1 ++ { w with queue := (ss.map Submission.task).reverse ++ w.queue } :: l2,
          false, cap⟩) := by
  induction ss with
  | nil => intro w _ _; simp [enqueue_all]
  | cons s ss ih =>
    intro w hr hk
    have hs : route numa (l1 ++ w :: l2) s.numa_node s.draw = l1.length := hr s (by simp)
    simp only [List.length_cons] at hk
    have h1 : enqueue numa ⟨l1 ++ w :: l2, false, cap⟩ (some s.func) s.numa_node s.draw =
        (.ok, ⟨l1 ++ { w with queue := s.task :: w.queue } :: l2, false, cap⟩) := by
      have hlt : w.queue.length < cap := by omega
      simp [enqueue, hs, queue_size_split, push_front, modify_split, hlt, Submission.task]
    have hr2 : ∀ s' ∈ ss,
        route numa (l1 ++ { w with queue := s.task :: w.queue } :: l2) s'.numa_node s'.draw =
          l1.length := by
      intro s' hs'
      rw [← hr s' (by simp [hs'])]
      apply route_congr
      simp
    have h2 := ih { w with queue := s.task :: w.queue } hr2 (by simp only [List.length_cons]; omega)
    simp only [enqueue_all, h1, h2]
    simp [List.replicate_succ]

theorem pop_local_n_spec {α : Type} (l1 l2 : List (Worker α)) (stop : Bool) (cap : Nat)
    (q : List (Task α)) :
    ∀ (w : Worker α) (rest : List (Task α)), w.queue = q ++ rest →
      pop_local_n ⟨l1 ++ w :: l2, stop, cap⟩ l1.length q.length =
        (q.map some, ⟨l1 ++ { w with queue := rest } :: l2, stop, cap⟩) := by
  induction q with
  | nil =>
    intro w rest hw
    obtain ⟨wq, wn⟩ := w
    simp only [List.nil_append] at hw
    simp [pop_local_n, hw]
  | cons t q ih =>
    intro w rest hw
    have h1 : try_pop_local ⟨l1 ++ w :: l2, stop, cap⟩ l1.length =
        (some t, ⟨l1 ++ { w with queue := q ++ rest } :: l2, stop, cap⟩) := by
      simp only [try_pop_local, getElem?_mid, hw, List.cons_append, set_split]
    have h2 := ih { w with queue := q ++ rest } rest rfl
    simp only [List.length_cons, pop_local_n, h1, h2, List.map_cons]

theorem steal_n_spec {α : Type} (l1 l2 : List (Worker α)) (stop : Bool) (cap : Nat)
    (q : List (Task α)) :
    ∀ (w : Worker α) (rest : List (Task α)), w.queue = rest ++ q →
      steal_n ⟨l1 ++ w :: l2, stop, cap⟩ l1.length q.length =
        (q.reverse.map some, ⟨l1 ++ { w with queue := rest } :: l2, stop, cap⟩) := by
  induction q using List.reverseRecOn with
  | nil =>
    intro w rest hw
    obtain ⟨wq, wn⟩ := w
    simp only [List.append_nil] at hw
    simp [steal_n, hw]
  | append_singleton q t ih =>
    intro w rest hw
    have h1 : try_steal ⟨l1 ++ w :: l2, stop, cap⟩ l1.length =
        (some t, ⟨l1 ++ { w with queue := rest ++ q } :: l2, stop, cap⟩) := by
      have h3 : w.queue = (rest ++ q) ++ [t] := by rw [hw, List.append_assoc]
      simp only [try_steal, getElem?_mid, h3, List.getLast?_concat, List.dropLast_concat,
        set_split]
    have h2 := ih { w with queue := rest ++ q } rest rfl
    simp only [List.length_append, List.length_singleton, steal_n, h1, h2,
      List.reverse_append, List.reverse_singleton, List.singleton_append, List.map_cons]

/-! ## C4: hinted routing -/

/-- C4. In every reachable running pool state on a machine with at least one
node, for every non-empty work and every hint `d` to whose node some worker is
assigned, an `enqueue` that succeeds has put the task at the front of the queue
of the worker with the smallest index whose node is `d`, has left every other
worker as it was, and does the same for every generator output. With 4 workers
and capacity 1000, 400 submissions with hint 0 all succeed and all sit on
worker 0, the other three queues staying empty. -/
theorem hinted_routing {α : Type} :
    (∀ (numa : NumaEnv) (p : Pool α), Reachable numa p → 0 ≤ numa.numa_max_node →
      p.stop = false → ∀ (f : α) (d : Int), (∃ v ∈ p.workers, v.numa_node = d) →
      ∀ (draw : Nat) (p' : Pool α), enqueue numa p (some f) d draw = (.ok, p') →
        ∃ (i : Nat) (w : Worker α), p.workers[i]? = some w ∧ w.numa_node = d ∧
          (∀ (j : Nat) (v : Worker α), j < i → p.workers[j]? = some v → v.numa_node ≠ d) ∧
          route numa p.workers d draw = i ∧
          p' = { p with workers := p.workers.set i { w with queue := ⟨f, d⟩ :: w.queue } } ∧
          ∀ draw' : Nat, enqueue numa p (some f) d draw' = (.ok, p')) ∧
    (∀ (numa : NumaEnv) (p0 : Pool α), construct numa 4 1000 = .ok p0 →
      0 ≤ numa.numa_max_node → ∀ ss : List (Submission α), ss.length = 400 →
      (∀ s ∈ ss, s.numa_node = 0) →
        (enqueue_all numa p0 ss).1 = List.replicate 400 .ok ∧
        (enqueue_all numa p0 ss).2.workers =
          [⟨(ss.map Submission.task).reverse, 0⟩,
           ⟨[], assigned_node (numa.numa_max_node + 1) 1⟩,
           ⟨[], assigned_node (numa.numa_max_node + 1) 2⟩,
           ⟨[], assigned_node (numa.numa_max_node + 1) 3⟩]) := by
  refine ⟨?_, ?_⟩
  · intro numa p hr hm hs f d hd draw p' henq
    obtain ⟨v, hv, hvd⟩ := hd
    obtain ⟨hd0, hd1⟩ := reachable_node_range hr hm v hv
    rw [hvd] at hd0 hd1
    rcases find_target_spec d p.workers 0 0 with ⟨h1, _⟩ | ⟨l1, w, l2, h1, h2, h3, h4⟩
    · exact absurd hvd (h1 v hv)
    · have hroute : ∀ draw' : Nat, route numa p.workers d draw' = l1.length := by
        intro draw'
        unfold route
        rw [if_pos ⟨hd0, hd1⟩, h4]
        omega
      obtain ⟨ws, stop, cap⟩ := p
      simp only at hs h1 hroute
      subst hs h1
      have key : ∀ draw' : Nat,
          enqueue numa ⟨l1 ++ w :: l2, false, cap⟩ (some f) d draw' =
            if cap ≤ w.queue.length then
              (.error .QueueFull, ⟨l1 ++ w :: l2, false, cap⟩)
            else
              (.ok, ⟨l1 ++ { w with queue := ⟨f, d⟩ :: w.queue } :: l2, false, cap⟩) := by
        intro draw'
        simp [enqueue, hroute draw', queue_size_split, push_front, modify_split]
      have hk := key draw
      rw [henq] at hk
      by_cases hc : cap ≤ w.queue.length
      · rw [if_pos hc] at hk
        cases hk
      · rw [if_neg hc] at hk
        refine ⟨l1.length, w, getElem?_mid l1 l2 w, h2, ?_, hroute draw, ?_, ?_⟩
        · intro j u hj hu
          rw [List.getElem?_append_left hj] at hu
          exact h3 u (List.getElem?_mem hu)
        · simp only [set_split]
          exact (Prod.mk.inj hk).2
        · intro draw'
          rw [key draw', if_neg hc]
          exact congrArg (Prod.mk EnqueueResult.ok) (Prod.mk.inj hk).2.symm
  · intro numa p0 h hm ss hlen hhint
    obtain ⟨_, _, hp⟩ := construct_ok h
    have h0 : assigned_node (numa.numa_max_node + 1) 0 = 0 := by
      unfold assigned_node
      split <;> simp
    have hrange : List.range 4 = [0, 1, 2, 3] := rfl
    rw [hrange] at hp
    simp only [List.map_cons, List.map_nil, h0] at hp
    subst hp
    have hr : ∀ s ∈ ss, route numa (([] : List (Worker α)) ++ ⟨[], 0⟩ ::
        [⟨[], assigned_node (numa.numa_max_node + 1) 1⟩,
         ⟨[], assigned_node (numa.numa_max_node + 1) 2⟩,
         ⟨[], assigned_node (numa.numa_max_node + 1) 3⟩]) s.numa_node s.draw =
        ([] : List (Worker α)).length := by
      intro s hs
      rw [hhint s hs]
      simp [route, hm, find_target]
    have := enqueue_all_same_target numa [] _ 1000 ss ⟨[], 0⟩ hr
      (by simp only [List.length_nil]; omega)
    simp only [List.nil_append, List.append_nil] at this
    rw [this, hlen]
    exact ⟨rfl, rfl⟩

/-- C4 at `WorkStealingThreadPool(2, 10)` on a four-node machine with hint 1
(worker 1), and at the 400 submissions of `main_numa.cpp` on a one-node machine. -/
theorem hinted_routing_witness :
    (Reachable numa_four_nodes pool_2_10 ∧ 0 ≤ numa_four_nodes.numa_max_node ∧
      pool_2_10.stop = false ∧ (∃ v ∈ pool_2_10.workers, v.numa_node = 1) ∧
      enqueue numa_four_nodes pool_2_10 (some 7) 1 5 =
        (.ok, ⟨[⟨[], 0⟩, ⟨[⟨7, 1⟩], 1⟩], false, 10⟩) ∧
      ∃ (i : Nat) (w : Worker Nat), pool_2_10.workers[i]? = some w ∧ w.numa_node = 1 ∧
        (∀ (j : Nat) (v : Worker Nat), j < i → pool_2_10.workers[j]? = some v →
          v.numa_node ≠ 1) ∧
        route numa_four_nodes pool_2_10.workers 1 5 = i ∧
        (⟨[⟨[], 0⟩, ⟨[⟨7, 1⟩], 1⟩], false, 10⟩ : Pool Nat) =
          { pool_2_10 with
            workers := pool_2_10.workers.set i { w with queue := ⟨7, 1⟩ :: w.queue } } ∧
        ∀ draw' : Nat, enqueue numa_four_nodes pool_2_10 (some 7) 1 draw' =
          (.ok, ⟨[⟨[], 0⟩, ⟨[⟨7, 1⟩], 1⟩], false, 10⟩)) ∧
    (construct numa_one_node 4 1000 = .ok pool_4_1000 ∧ submissions_400.length = 400 ∧
      (∀ s ∈ submissions_400, s.numa_node = 0) ∧
      (enqueue_all numa_one_node pool_4_1000 submissions_400).1 = List.replicate 400 .ok ∧
      (enqueue_all numa_one_node pool_4_1000 submissions_400).2.workers =
        [⟨(submissions_400.map Submission.task).reverse, 0⟩,
         ⟨[], assigned_node (numa_one_node.numa_max_node + 1) 1⟩,
         ⟨[], assigned_node (numa_one_node.numa_max_node + 1) 2⟩,
         ⟨[], assigned_node (numa_one_node.numa_max_node + 1) 3⟩]) :=
  have hlen : submissions_400.length = 400 := by simp [submissions_400]
  have hhint : ∀ s ∈ submissions_400, s.numa_node = 0 := by
    intro s hs
    simp only [submissions_400, List.mem_map] at hs
    obtain ⟨i, _, rfl⟩ := hs
    rfl
  ⟨⟨⟨2, 10, pool_2_10, [], rfl, rfl⟩, by decide, rfl, ⟨⟨[], 1⟩, by decide, rfl⟩, by decide,
    (@hinted_routing Nat).1 numa_four_nodes pool_2_10 ⟨2, 10, pool_2_10, [], rfl, rfl⟩
      (by decide) rfl 7 1 ⟨⟨[], 1⟩, by decide, rfl⟩ 5 _ (by decide)⟩,
   ⟨rfl, hlen, hhint,
    (@hinted_routing Nat).2 numa_one_node pool_4_1000 rfl (by decide) submissions_400 hlen
      hhint⟩⟩

/-! ## C6: order of local pops -/

/-- C6, as stated, fails: on `WorkStealingThreadPool(1, 2)` the callables 7 and
then 8 are enqueued on the empty queue of worker 0; two calls of
`try_pop_local(0, _)` return 8 first and 7 second, not 7 and then 8. -/
theorem local_pop_is_not_fifo :
    construct numa_one_node 1 2 = .ok pool_1_2 ∧
    (enqueue_all numa_one_node pool_1_2 [⟨7, -1, 0⟩, ⟨8, -1, 0⟩]).1 = [.ok, .ok] ∧
    (pop_local_n (enqueue_all numa_one_node pool_1_2 [⟨7, -1, 0⟩, ⟨8, -1, 0⟩]).2 0 2).1 =
      [some ⟨8, -1⟩, some ⟨7, -1⟩] ∧
    (pop_local_n (enqueue_all numa_one_node pool_1_2 [⟨7, -1, 0⟩, ⟨8, -1, 0⟩]).2 0 2).1 ≠
      [some ⟨7, -1⟩, some ⟨8, -1⟩] :=
  ⟨rfl, by decide, by decide, by decide⟩

/-- C6, amended. In every running pool state, for every worker `i` whose queue
is empty and every sequence of `k ≤ queue_capacity` submissions of non-empty
work that are all routed to worker `i`: the `k` calls of `enqueue` all succeed,
and `k` successive calls of `try_pop_local` on `i` (no steal in between) each
return a task, in reverse submission order: the task submitted last comes out
first (`push_front` and `pop_front` work on the same end of the deque). -/
theorem local_pop_order {α : Type} (numa : NumaEnv) (p : Pool α) (hs : p.stop = false)
    (i : Nat) (w : Worker α) (hw : p.workers[i]? = some w) (hq : w.queue = [])
    (ss : List (Submission α))
    (hroute : ∀ s ∈ ss, route numa p.workers s.numa_node s.draw = i)
    (hk : ss.length ≤ p.queue_capacity) :
    (enqueue_all numa p ss).1 = List.replicate ss.length .ok ∧
    (pop_local_n (enqueue_all numa p ss).2 i ss.length).1 =
      (ss.map (fun s => some s.task)).reverse := by
  obtain ⟨l1, l2, h1, h2⟩ := getElem?_split hw
  obtain ⟨ws, stop, cap⟩ := p
  simp only at hs h1 hroute hk
  subst hs h1 h2
  have h3 := enqueue_all_same_target numa l1 l2 cap ss w hroute (by rw [hq]; simpa using hk)
  rw [h3]
  refine ⟨rfl, ?_⟩
  have h4 := pop_local_n_spec l1 l2 false cap (ss.map Submission.task).reverse
    { w with queue := (ss.map Submission.task).reverse ++ w.queue } w.queue rfl
  simp only [List.length_reverse, List.length_map] at h4
  rw [h4]
  simp [List.map_reverse, Function.comp_def]

/-- C6, amended, at `WorkStealingThreadPool(1, 2)` with the callables 7 and 8. -/
theorem local_pop_order_witness :
    pool_1_2.stop = false ∧ pool_1_2.workers[0]? = some ⟨[], 0⟩ ∧
    (∀ s ∈ [(⟨7, -1, 0⟩ : Submission Nat), ⟨8, -1, 3⟩],
      route numa_one_node pool_1_2.workers s.numa_node s.draw = 0) ∧
    [(⟨7, -1, 0⟩ : Submission Nat), ⟨8, -1, 3⟩].length ≤ pool_1_2.queue_capacity ∧
    (enqueue_all numa_one_node pool_1_2 [⟨7, -1, 0⟩, ⟨8, -1, 3⟩]).1 =
      List.replicate [(⟨7, -1, 0⟩ : Submission Nat), ⟨8, -1, 3⟩].length .ok ∧
    (pop_local_n (enqueue_all numa_one_node pool_1_2 [⟨7, -1, 0⟩, ⟨8, -1, 3⟩]).2 0
        [(⟨7, -1, 0⟩ : Submission Nat), ⟨8, -1, 3⟩].length).1 =
      ([(⟨7, -1, 0⟩ : Submission Nat), ⟨8, -1, 3⟩].map (fun s => some s.task)).reverse :=
  ⟨rfl, rfl, by decide, by decide,
   local_pop_order numa_one_node pool_1_2 rfl 0 ⟨[], 0⟩ rfl rfl [⟨7, -1, 0⟩, ⟨8, -1, 3⟩]
     (by decide) (by decide)⟩

/-! ## C7: order of steals -/

/-- C7, as stated, fails: on `WorkStealingThreadPool(1, 2)` the callables 7 and
then 8 are enqueued on the empty queue of worker 0; two calls of
`try_steal(0, _)` return 7 first and 8 second, not 8 and then 7. -/
theorem steal_is_not_lifo :
    construct numa_one_node 1 2 = .ok pool_1_2 ∧
    (enqueue_all numa_one_node pool_1_2 [⟨7, -1, 0⟩, ⟨8, -1, 0⟩]).1 = [.ok, .ok] ∧
    (steal_n (enqueue_all numa_one_node pool_1_2 [⟨7, -1, 0⟩, ⟨8, -1, 0⟩]).2 0 2).1 =
      [some ⟨7, -1⟩, some ⟨8, -1⟩] ∧
    (steal_n (enqueue_all numa_one_node pool_1_2 [⟨7, -1, 0⟩, ⟨8, -1, 0⟩]).2 0 2).1 ≠
      [some ⟨8, -1⟩, some ⟨7, -1⟩] :=
  ⟨rfl, by decide, by decide, by decide⟩

/-- C7, amended. In every running pool state, for every victim `i` whose queue
is empty and every sequence of `k ≤ queue_capacity` submissions of non-empty
work that are all routed to worker `i`: the `k` calls of `enqueue` all succeed,
and `k` successive calls of `try_steal` on `i` (no local pop in between) each
return a task, in submission order: the task submitted first is stolen first
(`push_front` puts new tasks at the front, `pop_back` takes from the back). -/
theorem steal_order {α : Type} (numa : NumaEnv) (p : Pool α) (hs : p.stop = false)
    (i : Nat) (w : Worker α) (hw : p.workers[i]? = some w) (hq : w.queue = [])
    (ss : List (Submission α))
    (hroute : ∀ s ∈ ss, route numa p.workers s.numa_node s.draw = i)
    (hk : ss.length ≤ p.queue_capacity) :
    (enqueue_all numa p ss).1 = List.replicate ss.length .ok ∧
    (steal_n (enqueue_all numa p ss).2 i ss.length).1 = ss.map (fun s => some s.task) := by
  obtain ⟨l1, l2, h1, h2⟩ := getElem?_split hw
  obtain ⟨ws, stop, cap⟩ := p
  simp only at hs h1 hroute hk
  subst hs h1 h2
  have h3 := enqueue_all_same_target numa l1 l2 cap ss w hroute (by rw [hq]; simpa using hk)
  rw [h3]
  refine ⟨rfl, ?_⟩
  have h4 := steal_n_spec l1 l2 false cap (ss.map Submission.task).reverse
    { w with queue := (ss.map Submission.task).reverse ++ w.queue } [] (by simp [hq])
  simp only [List.length_reverse, List.length_map] at h4
  rw [h4]
  simp [Function.comp_def]

/-- C7, amended, at `WorkStealingThreadPool(1, 2)` with the callables 7 and 8. -/
theorem steal_order_witness :
    pool_1_2.stop = false ∧ pool_1_2.workers[0]? = some ⟨[], 0⟩ ∧
    (∀ s ∈ [(⟨7, -1, 0⟩ : Submission Nat), ⟨8, -1, 3⟩],
      route numa_one_node pool_1_2.workers s.numa_node s.draw = 0) ∧
    [(⟨7, -1, 0⟩ : Submission Nat), ⟨8, -1, 3⟩].length ≤ pool_1_2.queue_capacity ∧
    (enqueue_all numa_one_node pool_1_2 [⟨7, -1, 0⟩, ⟨8, -1, 3⟩]).1 =
      List.replicate [(⟨7, -1, 0⟩ : Submission Nat), ⟨8, -1, 3⟩].length .ok ∧
    (steal_n (enqueue_all numa_one_node pool_1_2 [⟨7, -1, 0⟩, ⟨8, -1, 3⟩]).2 0
        [(⟨7, -1, 0⟩ : Submission Nat), ⟨8, -1, 3⟩].length).1 =
      [(⟨7, -1, 0⟩ : Submission Nat), ⟨8, -1, 3⟩].map (fun s => some s.task) :=
  ⟨rfl, rfl, by decide, by decide,
   steal_order numa_one_node pool_1_2 rfl 0 ⟨[], 0⟩ rfl rfl [⟨7, -1, 0⟩, ⟨8, -1, 3⟩]
     (by decide) (by decide)⟩

/-! ## C9: conservation of tasks -/

theorem queued_split {α : Type} (l1 l2 : List (Worker α)) (w : Worker α) (stop : Bool)
    (cap : Nat) :
    queued ⟨l1 ++ w :: l2, stop, cap⟩ =
      (l1.map (fun v => v.queue)).flatten ++ (w.queue ++ (l2.map (fun v => v.queue)).flatten) := by
  simp [queued]

theorem step_workers_ne_nil {α : Type} (numa : NumaEnv) (p : Pool α) (op : Op α)
    (h : p.workers ≠ []) : (step numa p op).workers ≠ [] := by
  intro h2
  have h3 := step_nodes numa p op
  rw [nodes, nodes, h2] at h3
  cases hw : p.workers with
  | nil => exact h hw
  | cons a ws => rw [hw] at h3; simp at h3

theorem track_enqueue_some {α : Type} (numa : NumaEnv) (l : Ledger α) (f : α) (d : Int)
    (draw : Nat) :
    track numa l (.enqueue (some f) d draw) =
      if (enqueue numa l.pool (some f) d draw).1 = .ok then
        { pool := (enqueue numa l.pool (some f) d draw).2
          accepted := ⟨f, d⟩ :: l.accepted
          handed := l.handed }
      else { l with pool := (enqueue numa l.pool (some f) d draw).2 } := by
  simp only [track]
  generalize enqueue numa l.pool (some f) d draw = r
  obtain ⟨r1, r2⟩ := r
  cases r1 <;> simp

theorem enqueue_none_eq {α : Type} (numa : NumaEnv) (p : Pool α) (d : Int) (draw : Nat) :
    (enqueue numa p none d draw).1 ≠ .ok ∧ (enqueue numa p none d draw).2 = p := by
  unfold enqueue
  split <;> simp

theorem track_enqueue_none {α : Type} (numa : NumaEnv) (l : Ledger α) (d : Int) (draw : Nat) :
    track numa l (.enqueue none d draw) = l := by
  have h := (enqueue_none_eq numa l.pool d draw).2
  simp only [track]
  generalize enqueue numa l.pool none d draw = r at h
  obtain ⟨r1, r2⟩ := r
  simp only at h
  subst h
  rfl

theorem track_pool {α : Type} (numa : NumaEnv) (l : Ledger α) (op : Op α) :
    (track numa l op).pool = step numa l.pool op := by
  cases op with
  | enqueue task d draw =>
    cases task with
    | none => rw [track_enqueue_none]; exact ((enqueue_none_eq numa l.pool d draw).2).symm
    | some f => rw [track_enqueue_some]; split <;> rfl
  | try_pop_local i =>
    simp only [track, step]
    generalize try_pop_local l.pool i = r
    obtain ⟨r1, r2⟩ := r
    cases r1 <;> rfl
  | try_steal i =>
    simp only [track, step]
    generalize try_steal l.pool i = r
    obtain ⟨r1, r2⟩ := r
    cases r1 <;> rfl
  | shutdown => rfl
  | shutdown_now => rfl

theorem track_all_pool {α : Type} (numa : NumaEnv) (l : Ledger α) (ops : List (Op α)) :
    (track_all numa l ops).pool = run numa l.pool ops := by
  induction ops generalizing l with
  | nil => rfl
  | cons op ops ih =>
    show (track_all numa (track numa l op) ops).pool = run numa (step numa l.pool op) ops
    rw [ih, track_pool]

theorem track_perm {α : Type} (numa : NumaEnv) (l : Ledger α) (op : Op α)
    (hne : l.pool.workers ≠ []) (hop : op ≠ .shutdown_now)
    (hp : (queued l.pool ++ l.handed).Perm l.accepted) :
    (queued (track numa l op).pool ++ (track numa l op).handed).Perm
      (track numa l op).accepted := by
  obtain ⟨p, acc, handed⟩ := l
  simp only at hne hp
  cases op with
  | enqueue task d draw =>
    cases task with
    | none => rw [track_enqueue_none]; exact hp
    | some f =>
      rw [track_enqueue_some]
      simp only
      rcases enqueue_cases numa p f d draw with ⟨_, h⟩ | ⟨_, _, h⟩ | ⟨_, _, h0, _⟩ |
        ⟨_, l1, w, l2, h1, _, _, h⟩
      · simpa [h] using hp
      · simpa [h] using hp
      · have := route_lt numa p.workers d draw hne
        rw [List.getElem?_eq_none_iff] at h0
        omega
      · obtain ⟨ws, stop, cap⟩ := p
        simp only at h1
        subst h1
        rw [queued_split] at hp
        simp only [h, if_true, queued_split, List.cons_append, List.append_assoc] at hp ⊢
        exact List.perm_middle.trans (List.Perm.cons _ hp)
  | try_pop_local i =>
    rcases try_pop_local_cases p i with ⟨h, _⟩ | ⟨l1, w, l2, t, rest, h1, _, h3, h⟩
    · simpa [track, h] using hp
    · obtain ⟨ws, stop, cap⟩ := p
      simp only at h1
      subst h1
      rw [queued_split, h3] at hp
      simp only [track, h, queued_split, List.cons_append, List.append_assoc] at hp ⊢
      have e1 : ((l1.map (fun v => v.queue)).flatten ++
          (rest ++ ((l2.map (fun v => v.queue)).flatten ++ t :: handed))) =
          (((l1.map (fun v => v.queue)).flatten ++ rest ++
            (l2.map (fun v => v.queue)).flatten) ++ t :: handed) := by
        simp
      rw [e1]
      refine List.perm_middle.trans (List.Perm.trans ?_ hp)
      refine List.Perm.trans ?_ List.perm_middle.symm
      simp
  | try_steal i =>
    rcases try_steal_cases p i with ⟨h, _⟩ | ⟨l1, w, l2, t, rest, h1, _, h3, h⟩
    · simpa [track, h] using hp
    · obtain ⟨ws, stop, cap⟩ := p
      simp only at h1
      subst h1
      rw [queued_split, h3] at hp
      simp only [track, h, queued_split, List.cons_append, List.append_assoc,
        List.nil_append] at hp ⊢
      have e1 : ((l1.map (fun v => v.queue)).flatten ++
          (rest ++ ((l2.map (fun v => v.queue)).flatten ++ t :: handed))) =
          (((l1.map (fun v => v.queue)).flatten ++ rest ++
            (l2.map (fun v => v.queue)).flatten) ++ t :: handed) := by
        simp
      have e2 : ((l1.map (fun v => v.queue)).flatten ++
          (rest ++ t :: ((l2.map (fun v => v.queue)).flatten ++ handed))) =
          (((l1.map (fun v => v.queue)).flatten ++ rest) ++
            t :: ((l2.map (fun v => v.queue)).flatten ++ handed)) := by
        simp
      rw [e2] at hp
      rw [e1]
      refine List.perm_middle.trans (List.Perm.trans ?_ hp)
      refine List.Perm.trans ?_ List.perm_middle.symm
      simp
  | shutdown => simpa [track, shutdown, queued] using hp
  | shutdown_now => exact absurd rfl hop

theorem track_all_perm {α : Type} (numa : NumaEnv) (ops : List (Op α)) :
    ∀ l : Ledger α, l.pool.workers ≠ [] → (∀ op ∈ ops, op ≠ .shutdown_now) →
      (queued l.pool ++ l.handed).Perm l.accepted →
      (queued (track_all numa l ops).pool ++ (track_all numa l ops).handed).Perm
        (track_all numa l ops).accepted := by
  induction ops with
  | nil => intro l _ _ hp; exact hp
  | cons op ops ih =>
    intro l hne hops hp
    show (queued (track_all numa (track numa l op) ops).pool ++
      (track_all numa (track numa l op) ops).handed).Perm
        (track_all numa (track numa l op) ops).accepted
    apply ih
    · rw [track_pool]; exact step_workers_ne_nil numa l.pool op hne
    · intro op' hop'; exact hops op' (by simp [hop'])
    · exact track_perm numa l op hne (hops op (by simp)) hp

/-- C9. Take a constructed pool and any sequence of `enqueue`, `try_pop_local`,
`try_steal` and `shutdown` calls (no `shutdown_now`), recorded in a ledger. Then
the tasks in the queues together with the tasks handed out are, counted with
multiplicity, exactly the accepted tasks; if the accepted tasks are pairwise
distinct, no task occurs twice among the queued and handed-out tasks. In the
state reached: a successful `enqueue` puts the task at the front of exactly one
queue and changes nothing else; a failed `enqueue` changes nothing; a successful
`try_pop_local` (`try_steal`) removes exactly the returned task from the front
(back) of exactly one queue and changes nothing else; a failed one changes
nothing. -/
theorem task_conservation {α : Type} (numa : NumaEnv) (num_threads C : Nat) (p0 : Pool α)
    (h : construct numa num_threads C = .ok p0) (ops : List (Op α))
    (hops : ∀ op ∈ ops, op ≠ .shutdown_now) :
    (track_all numa ⟨p0, [], []⟩ ops).pool = run numa p0 ops ∧
    (queued (run numa p0 ops) ++ (track_all numa ⟨p0, [], []⟩ ops).handed).Perm
      (track_all numa ⟨p0, [], []⟩ ops).accepted ∧
    ((track_all numa ⟨p0, [], []⟩ ops).accepted.Nodup →
      (queued (run numa p0 ops) ++ (track_all numa ⟨p0, [], []⟩ ops).handed).Nodup) ∧
    (∀ (f : α) (d : Int) (draw : Nat) (p' : Pool α),
      enqueue numa (run numa p0 ops) (some f) d draw = (.ok, p') →
      ∃ (i : Nat) (w : Worker α), (run numa p0 ops).workers[i]? = some w ∧
        p' = { run numa p0 ops with
               workers := (run numa p0 ops).workers.set i
                 { w with queue := ⟨f, d⟩ :: w.queue } }) ∧
    (∀ (task : Option α) (d : Int) (draw : Nat),
      (enqueue numa (run numa p0 ops) task d draw).1 ≠ .ok →
      (enqueue numa (run numa p0 ops) task d draw).2 = run numa p0 ops) ∧
    (∀ (i : Nat) (t : Task α) (p' : Pool α),
      try_pop_local (run numa p0 ops) i = (some t, p') →
      ∃ (w : Worker α) (rest : List (Task α)),
        (run numa p0 ops).workers[i]? = some w ∧ w.queue = t :: rest ∧
        p' = { run numa p0 ops with
               workers := (run numa p0 ops).workers.set i { w with queue := rest } }) ∧
    (∀ (i : Nat) (p' : Pool α),
      try_pop_local (run numa p0 ops) i = (none, p') → p' = run numa p0 ops) ∧
    (∀ (i : Nat) (t : Task α) (p' : Pool α),
      try_steal (run numa p0 ops) i = (some t, p') →
      ∃ (w : Worker α) (rest : List (Task α)),
        (run numa p0 ops).workers[i]? = some w ∧ w.queue = rest ++ [t] ∧
        p' = { run numa p0 ops with
               workers := (run numa p0 ops).workers.set i { w with queue := rest } }) ∧
    (∀ (i : Nat) (p' : Pool α),
      try_steal (run numa p0 ops) i = (none, p') → p' = run numa p0 ops) := by
  have hr : Reachable numa (run numa p0 ops) := ⟨num_threads, C, p0, ops, h, rfl⟩
  have hne := reachable_workers_ne_nil hr
  have hne0 : p0.workers ≠ [] := reachable_workers_ne_nil ⟨num_threads, C, p0, [], h, rfl⟩
  have hq0 : queued p0 = [] := by
    obtain ⟨_, _, hp⟩ := construct_ok h
    rw [hp]
    simp [queued]
  have hpool := track_all_pool numa ⟨p0, [], []⟩ ops
  have hperm := track_all_perm numa ops ⟨p0, [], []⟩ hne0 hops (by simp [hq0])
  rw [hpool] at hperm
  simp only at hpool hperm
  generalize run numa p0 ops = q at hne hperm hpool ⊢
  refine ⟨hpool, hperm, fun hnd => (List.Perm.nodup_iff hperm).mpr hnd, ?_, ?_, ?_, ?_, ?_, ?_⟩
  · intro f d draw p' henq
    rcases enqueue_cases numa q f d draw with ⟨_, h1⟩ | ⟨_, _, h1⟩ | ⟨_, _, h0, _⟩ |
      ⟨_, l1, w, l2, h1, h2, _, h3⟩
    · rw [h1] at henq; cases henq
    · rw [h1] at henq; cases henq
    · have := route_lt numa q.workers d draw hne
      rw [List.getElem?_eq_none_iff] at h0
      omega
    · rw [h3] at henq
      refine ⟨l1.length, w, by rw [h1]; exact getElem?_mid l1 l2 w, ?_⟩
      rw [← (Prod.mk.inj henq).2]
      simp only [h1, set_split]
  · intro task d draw hfail
    cases task with
    | none => exact (enqueue_none_eq numa q d draw).2
    | some f =>
      rcases enqueue_cases numa q f d draw with ⟨_, h1⟩ | ⟨_, _, h1⟩ | ⟨_, _, _, h1⟩ |
        ⟨_, l1, w, l2, _, _, _, h1⟩
      · rw [h1]
      · rw [h1]
      · rw [h1]
      · rw [h1] at hfail; exact absurd rfl hfail
  · intro i t p' hpop
    rcases try_pop_local_cases q i with ⟨h1, _⟩ | ⟨l1, w, l2, t', rest, h1, h2, h3, h4⟩
    · rw [h1] at hpop; cases hpop
    · rw [h4] at hpop
      obtain ⟨ht, hp'⟩ := Prod.mk.inj hpop
      cases ht
      refine ⟨w, rest, by rw [h1, ← h2]; exact getElem?_mid l1 l2 w, h3, ?_⟩
      rw [← hp', ← h2]
      simp only [h1, set_split]
  · intro i p' hpop
    rcases try_pop_local_cases q i with ⟨h1, _⟩ | ⟨l1, w, l2, t', rest, h1, h2, h3, h4⟩
    · rw [h1] at hpop; exact (Prod.mk.inj hpop).2.symm
    · rw [h4] at hpop; cases hpop
  · intro i t p' hst
    rcases try_steal_cases q i with ⟨h1, _⟩ | ⟨l1, w, l2, t', rest, h1, h2, h3, h4⟩
    · rw [h1] at hst; cases hst
    · rw [h4] at hst
      obtain ⟨ht, hp'⟩ := Prod.mk.inj hst
      cases ht
      refine ⟨w, rest, by rw [h1, ← h2]; exact getElem?_mid l1 l2 w, h3, ?_⟩
      rw [← hp', ← h2]
      simp only [h1, set_split]
  · intro i p' hst
    rcases try_steal_cases q i with ⟨h1, _⟩ | ⟨l1, w, l2, t', rest, h1, h2, h3, h4⟩
    · rw [h1] at hst; exact (Prod.mk.inj hst).2.symm
    · rw [h4] at hst; cases hst

/-- C9 at `WorkStealingThreadPool(1, 2)` and the run `ops_example`. -/
theorem task_conservation_witness :
    construct numa_one_node 1 2 = .ok pool_1_2 ∧
    (∀ op ∈ ops_example, op ≠ Op.shutdown_now) ∧
    (queued (run numa_one_node pool_1_2 ops_example) ++
        (track_all numa_one_node ⟨pool_1_2, [], []⟩ ops_example).handed).Perm
      (track_all numa_one_node ⟨pool_1_2, [], []⟩ ops_example).accepted ∧
    ((track_all numa_one_node ⟨pool_1_2, [], []⟩ ops_example).accepted.Nodup →
      (queued (run numa_one_node pool_1_2 ops_example) ++
        (track_all numa_one_node ⟨pool_1_2, [], []⟩ ops_example).handed).Nodup) :=
  ⟨rfl, by decide,
   (task_conservation numa_one_node 1 2 pool_1_2 rfl ops_example (by decide)).2.1,
   (task_conservation numa_one_node 1 2 pool_1_2 rfl ops_example (by decide)).2.2.1⟩

end WorkStealingThreadPool
